import Mathlib

/-!
Verification of the bag2rrd conversion pipeline and TF transform graph.

This file shallowly embeds the parts of the program that the claims
concern:

* the binary TF message parser of src/mappings/tf.rs
  (parse_tf_message, parse_transform_stamped, parse_header, parse_string,
  parse_vector3, parse_quaternion, read_u32_le, read_f64_le);
* the transform graph of src/mappings/tf.rs (TfGraph with its dynamic and
  static edge maps, ingest_tf_msg, ingest_tf_static_msg, would_create_cycle,
  prune_dynamic, resolve, find_path, get_edge_transform,
  interpolate_samples, sample_to_isometry);
* the pass-2 record loop of src/convert.rs restricted to the state the
  claims mention: kept/skipped counters, the cumulative raw-byte
  statistic, the per-segment unit and byte counters, segment rotation and
  the final flush decision.

Modelling conventions:

* Bytes are Nat; payloads are byte lists.  u32/f64 little-endian reads are
  decoded exactly: every finite IEEE-754 double is a rational number, so
  f64 values are embedded as Rat.  The Inf/NaN encodings (exponent 2047)
  have no rational value and are mapped to 0; no theorem below ever
  decodes such bytes.
* Rust functions returning anyhow::Result are embedded as ParseOut, which
  distinguishes a success, an error return, and a panic.  A panic models
  an out-of-bounds slice index.
* BTreeMap/HashMap are embedded as association lists; BTreeMap iteration
  order (sorted keys) differs from insertion order, but no theorem in
  this file depends on the enumeration order of edges: the graph-search
  examples below have a unique simple path.
* Frame names are kept as raw byte lists (the code converts them to
  strings with from_utf8_lossy, which only changes the representation).
-/

/-- Outcome of an embedded fallible Rust computation: a success, an error
return (anyhow error propagated by the question-mark operator), or a
panic (out-of-bounds slice index). -/
inductive ParseOut (α : Type) where
  | ok : α → ParseOut α
  | fail : ParseOut α
  | panicked : ParseOut α
deriving DecidableEq, Repr

namespace ParseOut

/-- Sequencing with the Rust question-mark operator: an error or panic
short-circuits. -/
def bind {α β : Type} : ParseOut α → (α → ParseOut β) → ParseOut β
  | ok a, f => f a
  | fail, _ => fail
  | panicked, _ => panicked

instance : Monad ParseOut where
  pure := ok
  bind := bind

@[simp] theorem bind_ok {α β : Type} (a : α) (f : α → ParseOut β) :
    bind (ok a) f = f a := rfl

@[simp] theorem bind_fail {α β : Type} (f : α → ParseOut β) :
    bind fail f = (fail : ParseOut β) := rfl

@[simp] theorem bind_panicked {α β : Type} (f : α → ParseOut β) :
    bind panicked f = (panicked : ParseOut β) := rfl

end ParseOut

/-- A frame name, kept as its raw byte sequence. -/
abbrev Frame := List Nat

/-- Little-endian byte list to natural number. -/
def leNat : List Nat → Nat
  | [] => 0
  | b :: rest => b + 256 * leNat rest

/-- Exact rational value of an IEEE-754 binary64 bit pattern.  Normal and
subnormal values are decoded exactly; the exponent-2047 patterns (Inf and
NaN) have no rational value and are mapped to 0 (never decoded by any
theorem in this file). -/
def f64FromBits (bits : Nat) : ℚ :=
  let sign := bits / 2 ^ 63 % 2
  let expo := bits / 2 ^ 52 % 2 ^ 11
  let frac := bits % 2 ^ 52
  let significand : Nat :=
    if expo = 0 then frac * 2
    else if expo = 2047 then 0
    else (2 ^ 52 + frac) * 2 ^ expo
  let mag : ℚ := (significand : ℚ) / (2 ^ 1075 : ℚ)
  if sign = 1 then -mag else mag

/-- Embeds read_u32_le of src/mappings/tf.rs: bounds-checked 4-byte
little-endian read; returns the value and the advanced cursor. -/
def readU32LE (payload : List Nat) (c : Nat) : ParseOut (Nat × Nat) :=
  if c + 4 > payload.length then .fail
  else .ok (leNat ((payload.drop c).take 4), c + 4)

/-- Embeds read_f64_le of src/mappings/tf.rs: bounds-checked 8-byte
little-endian read decoded as an exact rational. -/
def readF64LE (payload : List Nat) (c : Nat) : ParseOut (ℚ × Nat) :=
  if c + 8 > payload.length then .fail
  else .ok (f64FromBits (leNat ((payload.drop c).take 8)), c + 8)

/-- Embeds parse_string of src/mappings/tf.rs.  The declared length is
read with a bounds check, but the subsequent slice
payload[cursor..cursor+len] has none: when the declared length exceeds
the remaining bytes the Rust code panics with an out-of-range slice
index.  That panic is modelled by the panicked outcome. -/
def parseString (payload : List Nat) (c : Nat) : ParseOut (Frame × Nat) :=
  ParseOut.bind (readU32LE payload c) fun (len, c1) =>
    if c1 + len > payload.length then .panicked
    else .ok ((payload.drop c1).take len, c1 + len)

/-- Mirrors the Header struct of src/mappings/tf.rs (only frame_id is
retained by the code). -/
structure RosHeader where
  frame_id : Frame
deriving DecidableEq, Repr

/-- Mirrors the Vector3 struct of src/mappings/tf.rs. -/
structure RosVector3 where
  x : ℚ
  y : ℚ
  z : ℚ
deriving DecidableEq, Repr

/-- Mirrors the RosQuaternion struct of src/mappings/tf.rs. -/
structure RosQuat where
  x : ℚ
  y : ℚ
  z : ℚ
  w : ℚ
deriving DecidableEq, Repr

/-- Mirrors the Transform struct of src/mappings/tf.rs. -/
structure RosTransform where
  translation : RosVector3
  rotation : RosQuat
deriving DecidableEq, Repr

/-- Mirrors the TransformStamped struct of src/mappings/tf.rs. -/
structure RosTransformStamped where
  header : RosHeader
  child_frame_id : Frame
  transform : RosTransform
deriving DecidableEq, Repr

/-- Embeds parse_header of src/mappings/tf.rs: the seq (4 bytes) and
stamp (8 bytes) fields are skipped by advancing the cursor without any
bounds check, then frame_id is read as a string. -/
def parseHeader (payload : List Nat) (c : Nat) : ParseOut (RosHeader × Nat) :=
  ParseOut.bind (parseString payload (c + 4 + 8)) fun (fid, c1) =>
    .ok (⟨fid⟩, c1)

/-- Embeds parse_vector3 of src/mappings/tf.rs. -/
def parseVector3 (payload : List Nat) (c : Nat) : ParseOut (RosVector3 × Nat) :=
  ParseOut.bind (readF64LE payload c) fun (x, c1) =>
    ParseOut.bind (readF64LE payload c1) fun (y, c2) =>
      ParseOut.bind (readF64LE payload c2) fun (z, c3) =>
        .ok (⟨x, y, z⟩, c3)

/-- Embeds parse_quaternion of src/mappings/tf.rs. -/
def parseQuaternion (payload : List Nat) (c : Nat) : ParseOut (RosQuat × Nat) :=
  ParseOut.bind (readF64LE payload c) fun (x, c1) =>
    ParseOut.bind (readF64LE payload c1) fun (y, c2) =>
      ParseOut.bind (readF64LE payload c2) fun (z, c3) =>
        ParseOut.bind (readF64LE payload c3) fun (w, c4) =>
          .ok (⟨x, y, z, w⟩, c4)

/-- Embeds parse_transform of src/mappings/tf.rs. -/
def parseTransform (payload : List Nat) (c : Nat) : ParseOut (RosTransform × Nat) :=
  ParseOut.bind (parseVector3 payload c) fun (tr, c1) =>
    ParseOut.bind (parseQuaternion payload c1) fun (rot, c2) =>
      .ok (⟨tr, rot⟩, c2)

/-- Embeds parse_transform_stamped of src/mappings/tf.rs. -/
def parseTransformStamped (payload : List Nat) (c : Nat) :
    ParseOut (RosTransformStamped × Nat) :=
  ParseOut.bind (parseHeader payload c) fun (h, c1) =>
    ParseOut.bind (parseString payload c1) fun (child, c2) =>
      ParseOut.bind (parseTransform payload c2) fun (tr, c3) =>
        .ok (⟨h, child, tr⟩, c3)

/-- Loop body of parse_tf_message: repeatedly parse TransformStamped
records while the cursor is inside the payload.  Each successful
iteration advances the cursor by at least 76 bytes, so the iteration
count is bounded by the payload length; the fuel parameter is always
instantiated with payload.length + 1, making the fuel-exhaustion branch
unreachable. -/
def parseTfLoop (payload : List Nat) : Nat → Nat → ParseOut (List RosTransformStamped)
  | 0, _ => .fail
  | fuel + 1, c =>
    if c < payload.length then
      ParseOut.bind (parseTransformStamped payload c) fun (tf, c1) =>
        ParseOut.bind (parseTfLoop payload fuel c1) fun rest =>
          .ok (tf :: rest)
    else .ok []

/-- Embeds parse_tf_message of src/mappings/tf.rs: a sequence of
TransformStamped records filling the whole payload. -/
def parseTfMessage (payload : List Nat) : ParseOut (List RosTransformStamped) :=
  parseTfLoop payload (payload.length + 1) 0

/-- A payload whose declared frame_id string length (100) exceeds the
remaining bytes (0): 12 skipped header bytes followed by the
little-endian length 100. -/
def truncatedTfPayload : List Nat :=
  [0, 0, 0, 0, 0, 0, 0, 0, 0, 0, 0, 0, 100, 0, 0, 0]

/-! ## Association-list embedding of BTreeMap / HashMap -/

/-- Lookup in an association list (map get). -/
def alGet {K V : Type} [DecidableEq K] (k : K) : List (K × V) → Option V
  | [] => none
  | (k', v) :: rest => if k' = k then some v else alGet k rest

/-- Map update: replace the value at an existing key in place, or append
the key with the value computed from none.  Mirrors both
BTreeMap::insert (with a constant function) and the entry().or_default()
pattern. -/
def alUpdate {K V : Type} [DecidableEq K] (k : K) (f : Option V → V) :
    List (K × V) → List (K × V)
  | [] => [(k, f none)]
  | (k', v) :: rest =>
    if k' = k then (k', f (some v)) :: rest else (k', v) :: alUpdate k f rest

@[simp] theorem alGet_nil {K V : Type} [DecidableEq K] (k : K) :
    alGet (V := V) k [] = none := rfl

@[simp] theorem alGet_cons {K V : Type} [DecidableEq K] (k k' : K) (v : V)
    (rest : List (K × V)) :
    alGet k ((k', v) :: rest) = if k' = k then some v else alGet k rest := rfl

/-- HashSet::insert on the membership-only model of a set of frames. -/
def insertUniq {K : Type} [DecidableEq K] (k : K) (l : List K) : List K :=
  if k ∈ l then l else l ++ [k]

/-! ## Quaternion and rigid-transform arithmetic over the rationals

These embed the nalgebra operations on Quaternion / UnitQuaternion /
Isometry3 used by src/mappings/tf.rs.  Quaternion components are stored
in the code's [x, y, z, w] order. -/

/-- Squared Euclidean norm of a quaternion. -/
def normSq (q : RosQuat) : ℚ := q.x * q.x + q.y * q.y + q.z * q.z + q.w * q.w

/-- Dot product of two quaternions viewed as 4-vectors. -/
def qdot (a b : RosQuat) : ℚ := a.x * b.x + a.y * b.y + a.z * b.z + a.w * b.w

/-- Hamilton product (nalgebra Quaternion multiplication). -/
def qmul (a b : RosQuat) : RosQuat :=
  ⟨a.w * b.x + a.x * b.w + a.y * b.z - a.z * b.y,
   a.w * b.y - a.x * b.z + a.y * b.w + a.z * b.x,
   a.w * b.z + a.x * b.y - a.y * b.x + a.z * b.w,
   a.w * b.w - a.x * b.x - a.y * b.y - a.z * b.z⟩

/-- Quaternion conjugate; for a unit quaternion this is nalgebra's
UnitQuaternion::inverse. -/
def qconj (q : RosQuat) : RosQuat := ⟨-q.x, -q.y, -q.z, q.w⟩

/-- Componentwise negation. -/
def qneg (q : RosQuat) : RosQuat := ⟨-q.x, -q.y, -q.z, -q.w⟩

/-- Rotation of a vector by a unit quaternion (nalgebra's UnitQuaternion
acting on a Vector3): the vector part of q v q⁻¹ with v embedded as a
pure quaternion and the inverse taken as the conjugate. -/
def qrotate (q : RosQuat) (v : RosVector3) : RosVector3 :=
  let r := qmul (qmul q ⟨v.x, v.y, v.z, 0⟩) (qconj q)
  ⟨r.x, r.y, r.z⟩

/-- Quaternion normalization (UnitQuaternion::from_quaternion divides by
the Euclidean norm).  The norm is irrational in general; over the
rational embedding the division is exact precisely when the squared norm
is 1, where normalization is the identity.  Every theorem in this file
applies it only to unit quaternions, so the else branch (a rational
surrogate leaving the quaternion unscaled) is never relied upon. -/
def normalizeQuat (q : RosQuat) : RosQuat :=
  if normSq q = 1 then q else q

/-- Spherical interpolation of unit quaternions (nalgebra slerp).
Mirrors nalgebra's structure: a negative dot product first flips the
second endpoint; a dot product of at least 1 (coincident endpoints)
returns the first quaternion, which is the only branch any theorem in
this file evaluates and is exact over the rationals.  The general branch
involves the transcendental functions acos and sin and is represented by
a rational surrogate (componentwise linear interpolation). -/
def slerpQ (a b : RosQuat) (t : ℚ) : RosQuat :=
  let b' := if qdot a b < 0 then qneg b else b
  if 1 ≤ qdot a b' then a
  else ⟨a.x + t * (b'.x - a.x), a.y + t * (b'.y - a.y),
        a.z + t * (b'.z - a.z), a.w + t * (b'.w - a.w)⟩

/-- Embeds nalgebra's Isometry3: a translation and a unit-quaternion
rotation. -/
structure Iso where
  translation : RosVector3
  rotation : RosQuat
deriving DecidableEq, Repr

/-- Identity isometry. -/
def isoIdentity : Iso := ⟨⟨0, 0, 0⟩, ⟨0, 0, 0, 1⟩⟩

/-- Isometry composition (nalgebra's Isometry multiplication):
translation f.t + f.R · g.t, rotation f.R · g.R. -/
def isoMul (f g : Iso) : Iso :=
  let rt := qrotate f.rotation g.translation
  ⟨⟨f.translation.x + rt.x, f.translation.y + rt.y, f.translation.z + rt.z⟩,
   qmul f.rotation g.rotation⟩

/-- Isometry inverse (nalgebra's Isometry::inverse): conjugate rotation,
translation mapped to the negated rotated translation. -/
def isoInverse (f : Iso) : Iso :=
  let r := qconj f.rotation
  let t := qrotate r f.translation
  ⟨⟨-t.x, -t.y, -t.z⟩, r⟩

/-! ## The transform graph of src/mappings/tf.rs -/

/-- Mirrors the TfSample struct: time, translation, quaternion in
[x, y, z, w] order. -/
structure TfSample where
  t : ℚ
  trans : RosVector3
  quat : RosQuat
deriving DecidableEq, Repr

/-- Mirrors the TfMode enum. -/
inductive TfMode where
  | nearest
  | interpolate
  | exact
deriving DecidableEq, Repr

/-- Mirrors the TfGraph struct: dynamic edges (key to ascending sample
list), static edges (key to single sample), and the parent-to-children
static adjacency used for cycle detection. -/
structure TfGraph where
  dynamic : List ((Frame × Frame) × List TfSample)
  static_edges : List ((Frame × Frame) × TfSample)
  static_graph : List (Frame × List Frame)
deriving DecidableEq, Repr

/-- TfGraph::new. -/
def TfGraph.new : TfGraph := ⟨[], [], []⟩

/-- Embeds sample_to_isometry: Isometry3::from_parts with the quaternion
renormalized by UnitQuaternion::from_quaternion. -/
def sampleToIsometry (s : TfSample) : Iso := ⟨s.trans, normalizeQuat s.quat⟩

/-- Children of a node in the static adjacency. -/
def staticChildren (adj : List (Frame × List Frame)) (n : Frame) : List Frame :=
  (alGet n adj).getD []

/-- Total number of child entries in the static adjacency, bounding the
number of stack pushes the cycle-detection walk can perform. -/
def totalStaticChildren (adj : List (Frame × List Frame)) : Nat :=
  (adj.map (fun e => e.2.length)).sum

/-- Worklist walk of TfGraph::would_create_cycle: pop a node, skip it if
already visited, succeed if it is the parent, otherwise mark it visited
and push its static children.  Fuel bounds the number of pops; it is
always instantiated with totalStaticChildren + 2, which exceeds the
worst case (one pop per initial stack entry plus one per pushed child),
so the fuel-exhaustion branch is unreachable. -/
def dfsReaches (adj : List (Frame × List Frame)) (parent : Frame) :
    Nat → List Frame → List Frame → Bool
  | 0, _, _ => false
  | fuel + 1, visited, stack =>
    match stack with
    | [] => false
    | node :: rest =>
      if node ∈ visited then dfsReaches adj parent fuel visited rest
      else if node = parent then true
      else dfsReaches adj parent fuel (node :: visited)
        (staticChildren adj node ++ rest)

/-- Embeds TfGraph::would_create_cycle: can the child reach the parent
through the existing static adjacency. -/
def wouldCreateCycle (g : TfGraph) (parent child : Frame) : Bool :=
  dfsReaches g.static_graph parent (totalStaticChildren g.static_graph + 2)
    [] [child]

/-- Embeds the per-transform body of TfGraph::ingest_tf_static_msg: the
sample is built at time 0 with a normalized quaternion; an insert whose
child can reach the parent is skipped; otherwise the sample is stored
under the key (BTreeMap::insert, overwriting any previous sample) and
the edge is recorded in the adjacency.  The log_transform call writes to
the sink only and is not part of the graph state. -/
def ingestStaticOne (g : TfGraph) (tf : RosTransformStamped) : TfGraph :=
  let parent := tf.header.frame_id
  let child := tf.child_frame_id
  let sample : TfSample :=
    ⟨0, tf.transform.translation, normalizeQuat tf.transform.rotation⟩
  if wouldCreateCycle g parent child then g
  else
    { g with
      static_edges := alUpdate (parent, child) (fun _ => sample) g.static_edges,
      static_graph :=
        alUpdate parent (fun o => insertUniq child (o.getD [])) g.static_graph }

/-- Embeds TfGraph::ingest_tf_static_msg: parse the payload and ingest
each transform in order. -/
def ingestTfStaticMsg (g : TfGraph) (payload : List Nat) : ParseOut TfGraph :=
  ParseOut.bind (parseTfMessage payload) fun tfs =>
    .ok (tfs.foldl ingestStaticOne g)

/-- Embeds the per-transform body of TfGraph::ingest_tf_msg: a sample at
the record time with a normalized quaternion is appended to the dynamic
edge's sample list (entry().or_default().push). -/
def ingestDynamicOne (ts : ℚ) (g : TfGraph) (tf : RosTransformStamped) : TfGraph :=
  let sample : TfSample :=
    ⟨ts, tf.transform.translation, normalizeQuat tf.transform.rotation⟩
  { g with
    dynamic := alUpdate (tf.header.frame_id, tf.child_frame_id)
      (fun o => o.getD [] ++ [sample]) g.dynamic }

/-- Embeds TfGraph::prune_dynamic: on every dynamic edge, retain exactly
the samples with time at least latest minus the buffer duration. -/
def pruneDynamic (g : TfGraph) (latest buffer : ℚ) : TfGraph :=
  let cutoff := latest - buffer
  { g with
    dynamic := g.dynamic.map fun e => (e.1, e.2.filter fun s => cutoff ≤ s.t) }

/-- Embeds TfGraph::ingest_tf_msg: parse the payload, append one sample
per transform, then prune with the record time as latest. -/
def ingestTfMsg (g : TfGraph) (ts : ℚ) (payload : List Nat) (buffer : ℚ) :
    ParseOut TfGraph :=
  ParseOut.bind (parseTfMessage payload) fun tfs =>
    .ok (pruneDynamic (tfs.foldl (ingestDynamicOne ts) g) ts buffer)

/-! ## Path search and transform resolution (TfGraph::resolve) -/

/-- State of the breadth-first search in TfGraph::find_path: the visited
set, the queue, and the predecessor map recording, for each reached
node, the traversal step (from, to) that reached it. -/
structure BfsState where
  visited : List Frame
  queue : List Frame
  parentMap : List (Frame × (Frame × Frame))
deriving Repr

/-- Neighbor scan of one edge-key list in TfGraph::find_path: a key
(p, c) with p equal to the current node enqueues an unvisited c with
step (p, c); a key with c equal to the current node enqueues an
unvisited p with step (current, p).  Both checks run in sequence on the
updated state, as in the source. -/
def scanEdges (current : Frame) (keys : List (Frame × Frame))
    (st : BfsState) : BfsState :=
  keys.foldl
    (fun st kv =>
      let p := kv.1
      let c := kv.2
      let st1 :=
        if p = current ∧ c ∉ st.visited then
          { visited := c :: st.visited,
            queue := st.queue ++ [c],
            parentMap := alUpdate c (fun _ => (p, c)) st.parentMap }
        else st
      if c = current ∧ p ∉ st1.visited then
        { visited := p :: st1.visited,
          queue := st1.queue ++ [p],
          parentMap := alUpdate p (fun _ => (current, p)) st1.parentMap }
      else st1)
    st

/-- Path reconstruction loop of TfGraph::find_path: follow predecessor
links from the target back to the source, collecting the traversal
steps.  The predecessor links form a tree toward the source, so the
chain length is bounded by the map size; fuel is always instantiated
with the map size plus one, making the exhaustion branch unreachable. -/
def reconstructPath (pm : List (Frame × (Frame × Frame))) :
    Nat → Frame → List (Frame × Frame)
  | 0, _ => []
  | fuel + 1, node =>
    match alGet node pm with
    | some s => s :: reconstructPath pm fuel s.1
    | none => []

/-- Main loop of TfGraph::find_path: pop the queue front; if it is the
target, reconstruct and reverse the collected steps; otherwise scan the
static edge keys and then the dynamic edge keys for neighbors.  Each
node is enqueued at most once (the visited check guards every enqueue),
so the number of pops is bounded by one plus twice the number of edge
keys; fuel is always instantiated above that bound, making the
exhaustion branch unreachable. -/
def bfsLoop (g : TfGraph) (target : Frame) :
    Nat → BfsState → Option (List (Frame × Frame))
  | 0, _ => none
  | fuel + 1, st =>
    match st.queue with
    | [] => none
    | current :: qrest =>
      if current = target then
        some (reconstructPath st.parentMap (st.parentMap.length + 1) current).reverse
      else
        let st1 := scanEdges current (g.static_edges.map (fun e => e.1))
          { st with queue := qrest }
        let st2 := scanEdges current (g.dynamic.map (fun e => e.1)) st1
        bfsLoop g target fuel st2

/-- Embeds TfGraph::find_path: breadth-first search from source for
target over the union of static and dynamic edge keys, ignoring key
direction, returning the traversal steps in order from the source. -/
def findPath (g : TfGraph) (source target : Frame) :
    Option (List (Frame × Frame)) :=
  bfsLoop g target (2 * (g.static_edges.length + g.dynamic.length) + 2)
    ⟨[source], [source], []⟩

/-- Exact rational value of the f64 literal 1e-9 used as the time
tolerance in interpolate_samples (bit pattern 0x3E112E0BE826D695). -/
def tfTimeTol : ℚ := (4835703278458517 : ℚ) / 2 ^ 82

/-- The before-selection update of the interpolate-mode scan in
TfGraph::interpolate_samples: a sample at or before the queried time
replaces the current candidate when it is strictly later. -/
def beforeStep (at_time : ℚ) (ob : Option TfSample) (s : TfSample) :
    Option TfSample :=
  if s.t ≤ at_time ∧ (∀ b ∈ ob, b.t < s.t) then some s else ob

/-- The after-selection update of the interpolate-mode scan: a sample at
or after the queried time replaces the current candidate when it is
strictly earlier. -/
def afterStep (at_time : ℚ) (oa : Option TfSample) (s : TfSample) :
    Option TfSample :=
  if at_time ≤ s.t ∧ (∀ a ∈ oa, s.t < a.t) then some s else oa

/-- One iteration of the interpolate-mode scan: the before and after
candidates are updated independently, as in the source loop. -/
def baStep (at_time : ℚ) (ba : Option TfSample × Option TfSample)
    (s : TfSample) : Option TfSample × Option TfSample :=
  (beforeStep at_time ba.1 s, afterStep at_time ba.2 s)

/-- Embeds TfGraph::interpolate_samples.  Exact mode takes the first
sample within the tolerance of the queried time.  Nearest mode scans for
the minimum absolute time difference; the f64::INFINITY initial best is
modelled by an Option that any first candidate beats.  Interpolate mode
scans for the latest sample at or before the time and the earliest at or
after it; when both exist and their times differ by more than the
tolerance it linearly interpolates the translation and slerps the
renormalized rotations by the fractional position, otherwise it falls
through to the sample that exists (before preferred, matching the match
arm order). -/
def interpolateSamples (samples : List TfSample) (at_time : ℚ) (mode : TfMode) :
    Option Iso :=
  match mode with
  | .exact =>
    (samples.find? fun s => |s.t - at_time| < tfTimeTol).map sampleToIsometry
  | .nearest =>
    let best := samples.foldl
      (fun best s =>
        match best with
        | none => some s
        | some b => if |s.t - at_time| < |b.t - at_time| then some s else some b)
      none
    best.map sampleToIsometry
  | .interpolate =>
    let scan := samples.foldl (baStep at_time)
      ((none, none) : Option TfSample × Option TfSample)
    match scan with
    | (some b, some a) =>
      if tfTimeTol < |a.t - b.t| then
        let frac := (at_time - b.t) / (a.t - b.t)
        let trans : RosVector3 :=
          ⟨b.trans.x + frac * (a.trans.x - b.trans.x),
           b.trans.y + frac * (a.trans.y - b.trans.y),
           b.trans.z + frac * (a.trans.z - b.trans.z)⟩
        let quat := slerpQ (normalizeQuat b.quat) (normalizeQuat a.quat) frac
        some (sampleToIsometry ⟨at_time, trans, quat⟩)
      else some (sampleToIsometry b)
    | (some b, none) => some (sampleToIsometry b)
    | (none, some a) => some (sampleToIsometry a)
    | (none, none) => none

/-- Embeds TfGraph::get_edge_transform: a static sample stored under the
traversed direction is used as is; one stored under the reverse key is
inverted; otherwise the dynamic samples are consulted, forward first,
with the reverse direction inverted. -/
def getEdgeTransform (g : TfGraph) (parent child : Frame) (at_time : ℚ)
    (mode : TfMode) : Option Iso :=
  match alGet (parent, child) g.static_edges with
  | some s => some (sampleToIsometry s)
  | none =>
    match alGet (child, parent) g.static_edges with
    | some s => some (isoInverse (sampleToIsometry s))
    | none =>
      match alGet (parent, child) g.dynamic with
      | some samples => interpolateSamples samples at_time mode
      | none =>
        match alGet (child, parent) g.dynamic with
        | some samples =>
          (interpolateSamples samples at_time mode).map isoInverse
        | none => none

/-- Composition loop of TfGraph::resolve: starting from the identity,
each traversal step (parent, child) contributes its edge transform on
the left; a step with no resolvable transform fails the whole
resolution. -/
def composePath (g : TfGraph) (at_time : ℚ) (mode : TfMode) :
    List (Frame × Frame) → Iso → Option Iso
  | [], iso => some iso
  | step :: rest, iso =>
    match getEdgeTransform g step.1 step.2 at_time mode with
    | none => none
    | some e => composePath g at_time mode rest (isoMul e iso)

/-- Embeds TfGraph::resolve: find a chain from source to target and
compose the per-edge transforms along it. -/
def resolve (g : TfGraph) (target source : Frame) (at_time : ℚ)
    (mode : TfMode) : Option Iso :=
  match findPath g source target with
  | none => none
  | some path => composePath g at_time mode path isoIdentity

/-- Frame names used by the concrete examples: the byte strings A, B, C. -/
def frA : Frame := [65]

/-- Frame name B. -/
def frB : Frame := [66]

/-- Frame name C. -/
def frC : Frame := [67]

/-- Identity rotation quaternion in [x, y, z, w] order. -/
def idQuat : RosQuat := ⟨0, 0, 0, 1⟩

/-! ## The pass-2 record loop of src/convert.rs

The model covers the region of convert_bag that processes one message
record that already passed the connection lookup and the topic/time
filters (src/convert.rs lines 306-567), the segment rotation block, and
the end-of-run final flush decision for the segmented path.  The sink
(rerun RecordingStream logging) is modelled as infallible; per the
specification the non-TF payload decoders are external collaborators and
enter the model as an explicit family of decode outcomes, while the TF
family dispatches into the concretely embedded ingest functions. -/

/-- Message type names distinguished by the dispatch match of
convert_bag, one constructor per match arm. -/
inductive RosType where
  | image
  | compressedImage
  | pointcloud2
  | laserscan
  | navsatfix
  | tf2Msg
  | tfMsg
  | tf2Static
  | tfStatic
  | odometry
  | poseStamped
  | navPath
  | other
deriving DecidableEq, Repr

/-- A message record after connection resolution and filtering: its
declared type, its relative timestamp, and its raw payload. -/
structure MsgRec where
  tp : RosType
  ts : ℚ
  payload : List Nat
deriving Repr

/-- The conversion options consulted by the modelled region: dry-run
flag, the two optional segmentation thresholds (validated positive
upstream), and the TF buffer duration. -/
structure ConvOpts where
  dryRun : Bool
  segmentSize : Option Nat
  segmentBytes : Option Nat
  tfBufferSeconds : ℚ
deriving Repr

/-- segmentation_enabled of convert_bag: some threshold is set and the
run is not a dry run. -/
def segmentationEnabled (o : ConvOpts) : Bool :=
  (o.segmentSize.isSome || o.segmentBytes.isSome) && !o.dryRun

/-- seg_size of convert_bag (unwrap_or 0). -/
def segSize (o : ConvOpts) : Nat := o.segmentSize.getD 0

/-- seg_bytes of convert_bag (unwrap_or 0). -/
def segBytes (o : ConvOpts) : Nat := o.segmentBytes.getD 0

/-- The mutable pass-2 state the claims mention: the kept and
skipped-type counters, the cumulative raw-byte statistic, the TF graph,
whether a recording stream is currently open, the current segment's unit
(image) and byte counters, the 0-based segment index, and the list of
part indices submitted as flush jobs. -/
structure RunState where
  kept : Nat
  skippedType : Nat
  statsRawBytes : Nat
  tf : TfGraph
  recOpen : Bool
  segmentImages : Nat
  segmentRawBytes : Nat
  segmentIndex : Nat
  parts : List Nat
deriving DecidableEq, Repr

/-- The initial pass-2 state. -/
def initState : RunState :=
  ⟨0, 0, 0, TfGraph.new, false, 0, 0, 0, []⟩

/-- Decode outcomes of the non-TF payload decoders, which the
specification treats as external collaborators consumed at their
interface boundary.  sensor_msgs/Image is fixed to success because
image_to_rerun catches its parse failures internally (logs and skips)
and never propagates them; the remaining decoders propagate their
errors, so their outcome per payload is a parameter of the model. -/
structure ExtDecoders where
  compressedImage : List Nat → ParseOut Unit
  pointcloud2 : List Nat → ParseOut Unit
  laserscan : List Nat → ParseOut Unit
  navsatfix : List Nat → ParseOut Unit
  odometry : List Nat → ParseOut Unit
  poseStamped : List Nat → ParseOut Unit
  navPath : List Nat → ParseOut Unit

/-- The external-decoder family in which every payload decodes. -/
def allOkDecoders : ExtDecoders :=
  ⟨fun _ => .ok (), fun _ => .ok (), fun _ => .ok (), fun _ => .ok (),
   fun _ => .ok (), fun _ => .ok (), fun _ => .ok ()⟩

/-- Counter updates shared by the five unit-category dispatch arms
(image, compressed image, point cloud, laser scan, GPS fix): increment
kept, add the payload length to the cumulative raw-byte statistic, and,
when segmentation is enabled, add one unit and the payload length to the
current segment's counters. -/
def countUnitArm (o : ConvOpts) (st : RunState) (len : Nat) : RunState :=
  let st := { st with kept := st.kept + 1, statsRawBytes := st.statsRawBytes + len }
  if segmentationEnabled o then
    { st with segmentImages := st.segmentImages + 1,
              segmentRawBytes := st.segmentRawBytes + len }
  else st

/-- Counter updates shared by the TF, odometry, pose and path dispatch
arms: increment kept and add the payload length to the cumulative
raw-byte statistic only; these arms do not touch the segment counters. -/
def countByteArm (st : RunState) (len : Nat) : RunState :=
  { st with kept := st.kept + 1, statsRawBytes := st.statsRawBytes + len }

/-- The dispatch match of convert_bag for one filtered-in record,
ending before the segment-rotation block.  Every arm calls its decoder
behind the question-mark operator, so a decode error or panic aborts the
whole pass; on success the arm updates the counters.  An unknown type
only increments the skipped-type statistic. -/
def dispatchRecord (d : ExtDecoders) (o : ConvOpts) (st : RunState)
    (r : MsgRec) : ParseOut RunState :=
  match r.tp with
  | .image => .ok (countUnitArm o st r.payload.length)
  | .compressedImage =>
    ParseOut.bind (d.compressedImage r.payload) fun _ =>
      .ok (countUnitArm o st r.payload.length)
  | .pointcloud2 =>
    ParseOut.bind (d.pointcloud2 r.payload) fun _ =>
      .ok (countUnitArm o st r.payload.length)
  | .laserscan =>
    ParseOut.bind (d.laserscan r.payload) fun _ =>
      .ok (countUnitArm o st r.payload.length)
  | .navsatfix =>
    ParseOut.bind (d.navsatfix r.payload) fun _ =>
      .ok (countUnitArm o st r.payload.length)
  | .tf2Msg =>
    ParseOut.bind (ingestTfMsg st.tf r.ts r.payload o.tfBufferSeconds) fun g =>
      .ok (countByteArm { st with tf := g } r.payload.length)
  | .tfMsg =>
    ParseOut.bind (ingestTfMsg st.tf r.ts r.payload o.tfBufferSeconds) fun g =>
      .ok (countByteArm { st with tf := g } r.payload.length)
  | .tf2Static =>
    ParseOut.bind (ingestTfStaticMsg st.tf r.payload) fun g =>
      .ok (countByteArm { st with tf := g } r.payload.length)
  | .tfStatic =>
    ParseOut.bind (ingestTfStaticMsg st.tf r.payload) fun g =>
      .ok (countByteArm { st with tf := g } r.payload.length)
  | .odometry =>
    ParseOut.bind (d.odometry r.payload) fun _ =>
      .ok (countByteArm st r.payload.length)
  | .poseStamped =>
    ParseOut.bind (d.poseStamped r.payload) fun _ =>
      .ok (countByteArm st r.payload.length)
  | .navPath =>
    ParseOut.bind (d.navPath r.payload) fun _ =>
      .ok (countByteArm st r.payload.length)
  | .other => .ok { st with skippedType := st.skippedType + 1 }

/-- The segment-rotation block of convert_bag: when segmentation is
enabled, either counter threshold is positive and met, and a recording
stream is open, the open segment is submitted as a flush job under part
index segment_index + 1, the counters reset, and the stream is closed
(to be reopened lazily on the next kept record). -/
def rotateSegment (o : ConvOpts) (st : RunState) : RunState :=
  if segmentationEnabled o
      ∧ ((0 < segSize o ∧ segSize o ≤ st.segmentImages)
        ∨ (0 < segBytes o ∧ segBytes o ≤ st.segmentRawBytes)) then
    if st.recOpen then
      { st with recOpen := false,
                parts := st.parts ++ [st.segmentIndex + 1],
                segmentIndex := st.segmentIndex + 1,
                segmentImages := 0,
                segmentRawBytes := 0 }
    else st
  else st

/-- Processing of one filtered-in record in pass 2: in dry-run mode the
record is only counted kept; otherwise a recording stream is ensured
open, the record is dispatched by type, and segment rotation is
evaluated. -/
def procRecord (d : ExtDecoders) (o : ConvOpts) (st : RunState)
    (r : MsgRec) : ParseOut RunState :=
  if o.dryRun then .ok { st with kept := st.kept + 1 }
  else
    ParseOut.bind (dispatchRecord d o { st with recOpen := true } r) fun st1 =>
      .ok (rotateSegment o st1)

/-- The pass-2 loop over the filtered record stream; a decode error or
panic propagates out of convert_bag immediately. -/
def runPass2 (d : ExtDecoders) (o : ConvOpts) :
    List MsgRec → RunState → ParseOut RunState
  | [], st => .ok st
  | r :: rest, st =>
    ParseOut.bind (procRecord d o st r) fun st1 => runPass2 d o rest st1

/-- End-of-run part emission for the segmented path: the parts submitted
by rotations followed by the final flush job, submitted only when a
stream is open and the closing segment contains at least one unit. -/
def emittedParts (st : RunState) : List Nat :=
  st.parts ++
    (if st.recOpen ∧ 0 < st.segmentImages then [st.segmentIndex + 1] else [])

/-- True for the five categories that advance the segment unit
counter. -/
def isUnitType : RosType → Bool
  | .image | .compressedImage | .pointcloud2 | .laserscan | .navsatfix => true
  | _ => false

/-- Number of qualifying units in a record stream. -/
def unitCount (rs : List MsgRec) : Nat :=
  (rs.filter fun r => isUnitType r.tp).length

/-! ## Shared lemmas about the association-list operations -/

theorem alGet_alUpdate {K V : Type} [DecidableEq K] (k k' : K)
    (f : Option V → V) (l : List (K × V)) :
    alGet k (alUpdate k' f l)
      = if k' = k then some (f (alGet k' l)) else alGet k l := by
  induction l with
  | nil => by_cases h : k' = k <;> simp [alUpdate, alGet, h]
  | cons e rest ih =>
    obtain ⟨ke, ve⟩ := e
    by_cases h1 : ke = k' <;> by_cases h2 : ke = k
    · have h3 : k' = k := h1.symm.trans h2
      simp [alUpdate, alGet, h1, h2, h3]
    · have h3 : ¬ k' = k := fun h => h2 (h1.trans h)
      simp [alUpdate, alGet, h1, h2, h3]
    · have h3 : ¬ k' = k := fun h => h1 (h2.trans h.symm)
      have h4 : ¬ k = k' := fun h => h1 (h2.trans h)
      simp [alUpdate, alGet, h1, h2, h3, h4]
    · simp [alUpdate, alGet, h1, h2, ih]

theorem alUpdate_mem {K V : Type} [DecidableEq K] (k : K) (f : Option V → V)
    (l : List (K × V)) (e : K × V) (h : e ∈ alUpdate k f l) :
    e.1 ∈ l.map Prod.fst ∨ e.1 = k := by
  induction l with
  | nil =>
    simp [alUpdate] at h
    subst h
    exact Or.inr rfl
  | cons hd rest ih =>
    obtain ⟨ke, ve⟩ := hd
    by_cases h1 : ke = k
    · simp only [alUpdate, if_pos h1] at h
      rcases List.mem_cons.mp h with h2 | h2
      · subst h2; exact Or.inr h1
      · exact Or.inl (List.mem_cons.mpr (Or.inr (List.mem_map_of_mem Prod.fst h2)))
    · simp only [alUpdate, if_neg h1] at h
      rcases List.mem_cons.mp h with h2 | h2
      · subst h2; exact Or.inl (List.mem_cons.mpr (Or.inl rfl))
      · rcases ih h2 with h3 | h3
        · exact Or.inl (List.mem_cons.mpr (Or.inr h3))
        · exact Or.inr h3

theorem alUpdate_keys_nodup {K V : Type} [DecidableEq K] (k : K)
    (f : Option V → V) (l : List (K × V))
    (h : (l.map Prod.fst).Nodup) : ((alUpdate k f l).map Prod.fst).Nodup := by
  induction l with
  | nil => simp [alUpdate]
  | cons hd rest ih =>
    obtain ⟨ke, ve⟩ := hd
    simp only [List.map_cons, List.nodup_cons] at h
    by_cases h1 : ke = k
    · simp only [alUpdate, if_pos h1, List.map_cons, List.nodup_cons]
      exact ⟨h.1, h.2⟩
    · simp only [alUpdate, if_neg h1, List.map_cons, List.nodup_cons]
      refine ⟨?_, ih h.2⟩
      intro hm
      rcases List.mem_map.mp hm with ⟨e, he, hke⟩
      rcases alUpdate_mem k f rest e he with h2 | h2
      · exact h.1 (hke ▸ h2)
      · exact h1 (hke ▸ h2)

/-! ## Claim C2: the TF payload parser panics on truncated strings -/

/-- C2: the claim states that parse_tf_message and its string and field
readers return either a parsed value or a decode error for every byte
sequence and never panic, in particular not on a truncated payload whose
declared string length exceeds the remaining bytes.  The code refutes
this: parse_string reads the declared length with a bounds check but
then slices payload[cursor..cursor+len] without one, so exactly the
truncated payload the claim singles out makes the slice index panic.
This theorem evaluates the embedded parser at such a payload (12 skipped
header bytes followed by the little-endian declared length 100 and no
string bytes): both the whole-message parse and the inner parse_string
call reach the panic, not an error return. -/
theorem parse_string_truncated_panics :
    parseTfMessage truncatedTfPayload = .panicked
      ∧ parseString truncatedTfPayload 12 = .panicked
      ∧ parseTfMessage [0, 0, 0] = .fail := by
  refine ⟨by decide, by decide, by decide⟩

/-! ## Claim C10: resolving a frame against itself yields the identity -/

/-- C10: for every graph (including one that has never seen the frame),
every frame name, every query time and every mode, resolve with source
equal to target returns the identity transform: the breadth-first search
immediately meets the target, reconstructs an empty chain, and the
composition over the empty chain is the identity. -/
theorem resolve_self_is_identity (g : TfGraph) (F : Frame) (t : ℚ)
    (mode : TfMode) : resolve g F F t mode = some isoIdentity := by
  have h : findPath g F F = some [] := by
    show bfsLoop g F ((2 * (g.static_edges.length + g.dynamic.length) + 1) + 1)
      ⟨[F], [F], []⟩ = some []
    rw [bfsLoop]
    simp [reconstructPath, alGet]
  simp [resolve, h, composePath]

/-! ## Claim C1: a record-level decode failure aborts the whole run -/

/-- A TF record whose empty payload decodes to zero transforms. -/
def tfEmptyRec : MsgRec := ⟨.tf2Msg, 0, []⟩

/-- A TF record whose 3-byte payload fails to decode (the u32 read of
the header frame_id length runs past the end). -/
def tfTruncRec : MsgRec := ⟨.tf2Msg, 0, [0, 0, 0]⟩

/-- A stream of 10 TF records in which record 5 has a truncated
payload. -/
def streamWithBadFifth : List MsgRec :=
  [tfEmptyRec, tfEmptyRec, tfEmptyRec, tfEmptyRec, tfTruncRec,
   tfEmptyRec, tfEmptyRec, tfEmptyRec, tfEmptyRec, tfEmptyRec]

/-- Options for a plain (non-segmented, non-dry) run. -/
def plainOpts : ConvOpts := ⟨false, none, none, 30⟩

/-- C1 counterexample: the claim states that a record whose payload
fails to decode for its declared type is logged and counted as skipped
and the run continues to completion, so that a stream of 10 records with
a truncated fifth yields 9 kept plus 1 skipped and the run succeeds.
The code refutes this: every dispatch arm of convert_bag calls its
decoder behind the question-mark operator, so the decode error of record
5 propagates out of the pass-2 loop and convert_bag returns the error.
On the concrete 10-record TF stream the run aborts instead of
finishing. -/
theorem decode_failure_aborts_run :
    runPass2 allOkDecoders plainOpts streamWithBadFifth initState = .fail := by
  decide

/-- C1 amended: a record whose payload fails to decode for its declared
type aborts the run at that record: whenever the records before it
process successfully and its own processing returns the decode error,
the whole pass-2 loop returns the decode error, whatever records
follow. -/
theorem decode_failure_propagates (d : ExtDecoders) (o : ConvOpts)
    (pre : List MsgRec) (bad : MsgRec) (rest : List MsgRec)
    (st st1 : RunState)
    (hpre : runPass2 d o pre st = .ok st1)
    (hbad : procRecord d o st1 bad = .fail) :
    runPass2 d o (pre ++ bad :: rest) st = .fail := by
  induction pre generalizing st with
  | nil =>
    simp only [runPass2] at hpre
    cases hpre
    simp [runPass2, hbad]
  | cons r pre' ih =>
    simp only [runPass2] at hpre ⊢
    cases hp : procRecord d o st r with
    | ok st2 =>
      rw [hp] at hpre
      simp only [ParseOut.bind_ok] at hpre ⊢
      exact ih st2 hpre
    | fail => rw [hp] at hpre; simp at hpre
    | panicked => rw [hp] at hpre; simp at hpre

/-- The pass-2 state after the four successfully processed empty TF
records of the counterexample stream. -/
def stateAfterFour : RunState :=
  ⟨4, 0, 0, TfGraph.new, true, 0, 0, 0, []⟩

/-- C1 amended witness: the general abort theorem applied to the
concrete 10-record stream with the truncated fifth record. -/
theorem decode_failure_propagates_witness :
    runPass2 allOkDecoders plainOpts
        [tfEmptyRec, tfEmptyRec, tfEmptyRec, tfEmptyRec] initState
        = .ok stateAfterFour
      ∧ procRecord allOkDecoders plainOpts stateAfterFour tfTruncRec = .fail
      ∧ runPass2 allOkDecoders plainOpts
          ([tfEmptyRec, tfEmptyRec, tfEmptyRec, tfEmptyRec]
            ++ tfTruncRec ::
              [tfEmptyRec, tfEmptyRec, tfEmptyRec, tfEmptyRec, tfEmptyRec])
          initState = .fail :=
  ⟨by decide, by decide,
   decode_failure_propagates allOkDecoders plainOpts
     [tfEmptyRec, tfEmptyRec, tfEmptyRec, tfEmptyRec] tfTruncRec
     [tfEmptyRec, tfEmptyRec, tfEmptyRec, tfEmptyRec, tfEmptyRec]
     initState stateAfterFour (by decide) (by decide)⟩

/-! ## Concrete TF payloads, mirroring tests create_tf_static_payload -/

/-- Little-endian u32 encoding of a length. -/
def u32leBytes (n : Nat) : List Nat :=
  [n % 256, n / 2 ^ 8 % 256, n / 2 ^ 16 % 256, n / 2 ^ 24 % 256]

/-- Little-endian bytes of the f64 value 1.0. -/
def f64OneBytes : List Nat := [0, 0, 0, 0, 0, 0, 240, 63]

/-- Little-endian bytes of the f64 value 2.0. -/
def f64TwoBytes : List Nat := [0, 0, 0, 0, 0, 0, 0, 64]

/-- Little-endian bytes of the f64 value -1.0. -/
def f64NegOneBytes : List Nat := [0, 0, 0, 0, 0, 0, 240, 191]

/-- Little-endian bytes of the f64 value 0.0. -/
def f64ZeroBytes : List Nat := [0, 0, 0, 0, 0, 0, 0, 0]

/-- A single-TransformStamped payload: 12 header bytes, the two frame
strings, the translation and the rotation. -/
def mkTfPayload (parent child : Frame) (tx ty tz qx qy qz qw : List Nat) :
    List Nat :=
  List.replicate 12 0 ++ u32leBytes parent.length ++ parent
    ++ u32leBytes child.length ++ child ++ tx ++ ty ++ tz ++ qx ++ qy ++ qz ++ qw

/-- Static edge A to B with translation (1, 0, 0), identity rotation. -/
def payloadAB1 : List Nat :=
  mkTfPayload frA frB f64OneBytes f64ZeroBytes f64ZeroBytes
    f64ZeroBytes f64ZeroBytes f64ZeroBytes f64OneBytes

/-- Static edge A to B with translation (2, 0, 0), identity rotation. -/
def payloadAB2 : List Nat :=
  mkTfPayload frA frB f64TwoBytes f64ZeroBytes f64ZeroBytes
    f64ZeroBytes f64ZeroBytes f64ZeroBytes f64OneBytes

/-- Static edge B to A with translation (-1, 0, 0), identity rotation. -/
def payloadBA : List Nat :=
  mkTfPayload frB frA f64NegOneBytes f64ZeroBytes f64ZeroBytes
    f64ZeroBytes f64ZeroBytes f64ZeroBytes f64OneBytes

/-- The graph after statically ingesting payloadAB1 into the empty
graph. -/
def graphAB : TfGraph :=
  ⟨[], [((frA, frB), ⟨0, ⟨1, 0, 0⟩, ⟨0, 0, 0, 1⟩⟩)], [(frA, [frB])]⟩

set_option maxRecDepth 100000 in
set_option exponentiation.threshold 2000 in
/-- Evaluation of the static ingest of payloadAB1 into the empty
graph. -/
theorem graphAB_from_payload :
    ingestTfStaticMsg TfGraph.new payloadAB1 = .ok graphAB := by
  norm_num [payloadAB1, mkTfPayload, u32leBytes, f64OneBytes, f64ZeroBytes, frA, frB,
    parseTfMessage, parseTfLoop, parseTransformStamped, parseHeader, parseString,
    parseTransform, parseVector3, parseQuaternion, readU32LE, readF64LE, leNat,
    f64FromBits, List.replicate, ingestTfStaticMsg, ingestStaticOne, wouldCreateCycle,
    dfsReaches, totalStaticChildren, staticChildren, alGet, alUpdate, insertUniq,
    normalizeQuat, normSq, TfGraph.new, graphAB]

/-! ## Claim C4: a same-key static re-ingest overwrites the sample -/

set_option maxRecDepth 100000 in
set_option exponentiation.threshold 2000 in
/-- C4 counterexample: the claim states that for every static edge key
at most one sample is ever stored, inserted once, and once inserted it
is never overwritten by a later static ingest of the same key.  The code
refutes the never-overwritten part: statically ingesting the key (A, B)
with translation (1, 0, 0) and then again with translation (2, 0, 0)
passes the cycle check both times (B cannot reach A), and
BTreeMap::insert replaces the stored sample, leaving the second one. -/
theorem static_same_key_reingest_overwrites :
    ParseOut.bind (ingestTfStaticMsg TfGraph.new payloadAB1)
        (fun g => ingestTfStaticMsg g payloadAB2)
      = .ok ⟨[], [((frA, frB), ⟨0, ⟨2, 0, 0⟩, ⟨0, 0, 0, 1⟩⟩)], [(frA, [frB])]⟩
    ∧ (⟨0, ⟨2, 0, 0⟩, ⟨0, 0, 0, 1⟩⟩ : TfSample) ≠ ⟨0, ⟨1, 0, 0⟩, ⟨0, 0, 0, 1⟩⟩ := by
  constructor
  · rw [graphAB_from_payload]
    norm_num [payloadAB2, mkTfPayload, u32leBytes, f64TwoBytes, f64OneBytes,
      f64ZeroBytes, frA, frB, parseTfMessage, parseTfLoop, parseTransformStamped,
      parseHeader, parseString, parseTransform, parseVector3, parseQuaternion,
      readU32LE, readF64LE, leNat, f64FromBits, List.replicate, ingestTfStaticMsg,
      ingestStaticOne, wouldCreateCycle, dfsReaches, totalStaticChildren,
      staticChildren, alGet, alUpdate, insertUniq, normalizeQuat, normSq, graphAB]
  · intro h
    have := congrArg (fun s => s.trans.x) h
    norm_num at this

/-- C4 amended: for every static edge key the map stores at most one
sample (key uniqueness is preserved by every ingest), and an ingest
whose cycle check passes stores its sample under the key, replacing any
previously stored sample of that key. -/
theorem static_insert_stores_or_overwrites (g : TfGraph)
    (tf : RosTransformStamped)
    (h : wouldCreateCycle g tf.header.frame_id tf.child_frame_id = false) :
    alGet (tf.header.frame_id, tf.child_frame_id)
        (ingestStaticOne g tf).static_edges
      = some ⟨0, tf.transform.translation, normalizeQuat tf.transform.rotation⟩
    ∧ ((g.static_edges.map Prod.fst).Nodup →
        ((ingestStaticOne g tf).static_edges.map Prod.fst).Nodup) := by
  constructor
  · simp [ingestStaticOne, h, alGet_alUpdate]
  · intro hn
    simp only [ingestStaticOne, h, Bool.false_eq_true, if_false]
    exact alUpdate_keys_nodup _ _ _ hn

/-- C4 amended witness: re-ingesting the existing key (A, B) with a new
translation passes the cycle check and the stored sample becomes the new
one, with key uniqueness preserved. -/
theorem static_insert_stores_or_overwrites_witness :
    wouldCreateCycle graphAB frA frB = false
    ∧ alGet (frA, frB)
        (ingestStaticOne graphAB ⟨⟨frA⟩, frB, ⟨⟨2, 0, 0⟩, ⟨0, 0, 0, 1⟩⟩⟩).static_edges
      = some ⟨0, ⟨2, 0, 0⟩, normalizeQuat ⟨0, 0, 0, 1⟩⟩ :=
  ⟨by decide,
   (static_insert_stores_or_overwrites graphAB
     ⟨⟨frA⟩, frB, ⟨⟨2, 0, 0⟩, ⟨0, 0, 0, 1⟩⟩⟩ (by decide)).1⟩

/-! ## Claim C5: inserts whose child reaches the parent are rejected -/

/-- Reachability through the static adjacency: the reflexive-transitive
closure of the parent-to-child edge relation. -/
def ReachStatic (adj : List (Frame × List Frame)) (a b : Frame) : Prop :=
  Relation.ReflTransGen (fun x y => y ∈ staticChildren adj x) a b

/-- Sum of the child-list lengths over the adjacency entries whose key
is not yet visited: an upper bound on the stack pushes still available
to the cycle-detection walk. -/
def unvisitedPotential (adj : List (Frame × List Frame))
    (visited : List Frame) : Nat :=
  ((adj.filter fun e => decide (e.1 ∉ visited)).map fun e => e.2.length).sum

theorem unvisitedPotential_cons (e : Frame × List Frame)
    (rest : List (Frame × List Frame)) (visited : List Frame) :
    unvisitedPotential (e :: rest) visited
      = (if e.1 ∈ visited then 0 else e.2.length)
        + unvisitedPotential rest visited := by
  by_cases h : e.1 ∈ visited <;> simp [unvisitedPotential, h]

theorem unvisitedPotential_nil_visited (adj : List (Frame × List Frame)) :
    unvisitedPotential adj [] = totalStaticChildren adj := by
  induction adj with
  | nil => rfl
  | cons e rest ih =>
    rw [unvisitedPotential_cons, ih]
    simp [totalStaticChildren]

theorem unvisitedPotential_cons_le (adj : List (Frame × List Frame))
    (visited : List Frame) (node : Frame) :
    unvisitedPotential adj (node :: visited)
      ≤ unvisitedPotential adj visited := by
  induction adj with
  | nil => simp [unvisitedPotential]
  | cons e rest ih =>
    rw [unvisitedPotential_cons, unvisitedPotential_cons]
    have h1 : (if e.1 ∈ node :: visited then 0 else e.2.length)
        ≤ (if e.1 ∈ visited then 0 else e.2.length) := by
      by_cases h : e.1 ∈ visited
      · simp [h, List.mem_cons_of_mem node h]
      · by_cases h2 : e.1 = node <;> simp [h, h2]
    omega

theorem unvisitedPotential_insert (adj : List (Frame × List Frame))
    (visited : List Frame) (node : Frame) (hnv : node ∉ visited) :
    unvisitedPotential adj (node :: visited) + (staticChildren adj node).length
      ≤ unvisitedPotential adj visited := by
  induction adj with
  | nil => simp [unvisitedPotential, staticChildren, alGet]
  | cons e rest ih =>
    obtain ⟨ke, cs⟩ := e
    rw [unvisitedPotential_cons, unvisitedPotential_cons]
    by_cases h2 : ke = node
    · have h3 : (ke, cs).1 ∈ node :: visited := by simp [h2]
      have h1 : (ke, cs).1 ∉ visited := by simpa [h2] using hnv
      have hch : staticChildren ((ke, cs) :: rest) node = cs := by
        simp [staticChildren, alGet, h2]
      have hle := unvisitedPotential_cons_le rest visited node
      rw [hch]
      simp only [h3, if_pos, h1, if_neg]
      simp
      omega
    · have hch : staticChildren ((ke, cs) :: rest) node
          = staticChildren rest node := by
        simp [staticChildren, alGet, h2]
      have h4 : ((ke, cs).1 ∈ node :: visited) ↔ ((ke, cs).1 ∈ visited) := by
        simp [h2]
      rw [hch]
      by_cases h1 : ke ∈ visited
      · simp only [h4.mpr h1, if_pos, h1]
        simpa using ih
      · have h5 : (ke, cs).1 ∉ node :: visited := fun hm => h1 (h4.mp hm)
        simp only [h5, if_neg, h1]
        simp
        omega

/-- When the cycle-detection walk answers false with sufficient fuel and
a closed frontier, no node of the stack or the visited set reaches the
parent through the static adjacency. -/
theorem dfs_false_unreachable (adj : List (Frame × List Frame))
    (parent : Frame) (fuel : Nat) :
    ∀ (visited stack : List Frame),
    (∀ v ∈ visited, v ≠ parent
      ∧ ∀ c ∈ staticChildren adj v, c ∈ visited ∨ c ∈ stack) →
    stack.length + unvisitedPotential adj visited + 1 ≤ fuel →
    dfsReaches adj parent fuel visited stack = false →
    ∀ n, n ∈ stack ∨ n ∈ visited → ¬ ReachStatic adj n parent := by
  induction fuel with
  | zero => intro visited stack _ hfuel; omega
  | succ fuel ih =>
    intro visited stack hclosed hfuel hfalse n hn
    match stack, hn with
    | [], hn =>
      have hvn : n ∈ visited := by simpa using hn
      intro hr
      have hclaim : n ∈ visited → False := by
        refine @Relation.ReflTransGen.head_induction_on Frame
            (fun x y => y ∈ staticChildren adj x) parent
            (fun a _ => a ∈ visited → False) n hr ?_ ?_
        · intro hp
          exact (hclosed parent hp).1 rfl
        · intro a c hac hcb ihc ha
          rcases (hclosed a ha).2 c hac with hc | hc
          · exact ihc hc
          · simp at hc
      exact hclaim hvn
    | node :: rest, hn =>
      by_cases hv : node ∈ visited
      · have hfalse' : dfsReaches adj parent fuel visited rest = false := by
          simpa [dfsReaches, hv] using hfalse
        have hclosed' : ∀ v ∈ visited, v ≠ parent
            ∧ ∀ c ∈ staticChildren adj v, c ∈ visited ∨ c ∈ rest := by
          intro v hvv
          refine ⟨(hclosed v hvv).1, fun c hc => ?_⟩
          rcases (hclosed v hvv).2 c hc with h | h
          · exact Or.inl h
          · rcases List.mem_cons.mp h with h | h
            · exact Or.inl (h ▸ hv)
            · exact Or.inr h
        have hfuel' :
            rest.length + unvisitedPotential adj visited + 1 ≤ fuel := by
          simp only [List.length_cons] at hfuel; omega
        have hrec := ih visited rest hclosed' hfuel' hfalse'
        rcases hn with h | h
        · rcases List.mem_cons.mp h with h | h
          · exact hrec n (Or.inr (h ▸ hv))
          · exact hrec n (Or.inl h)
        · exact hrec n (Or.inr h)
      · by_cases hp : node = parent
        · exfalso
          have htrue : dfsReaches adj parent (fuel + 1) visited (node :: rest)
              = true := by
            simp only [dfsReaches]
            rw [if_neg hv, if_pos hp]
          rw [htrue] at hfalse
          exact Bool.noConfusion hfalse
        · have hfalse' : dfsReaches adj parent fuel (node :: visited)
              (staticChildren adj node ++ rest) = false := by
            simpa [dfsReaches, hv, hp] using hfalse
          have hclosed' : ∀ v ∈ node :: visited, v ≠ parent
              ∧ ∀ c ∈ staticChildren adj v,
                  c ∈ node :: visited ∨ c ∈ staticChildren adj node ++ rest := by
            intro v hvv
            rcases List.mem_cons.mp hvv with h | h
            · subst h
              exact ⟨hp, fun c hc => Or.inr (List.mem_append_left _ hc)⟩
            · refine ⟨(hclosed v h).1, fun c hc => ?_⟩
              rcases (hclosed v h).2 c hc with h2 | h2
              · exact Or.inl (List.mem_cons_of_mem node h2)
              · rcases List.mem_cons.mp h2 with h3 | h3
                · exact Or.inl (h3 ▸ List.mem_cons_self node visited)
                · exact Or.inr (List.mem_append_right _ h3)
          have hfuel' :
              (staticChildren adj node ++ rest).length
                + unvisitedPotential adj (node :: visited) + 1 ≤ fuel := by
            have hins := unvisitedPotential_insert adj visited node hv
            simp only [List.length_append, List.length_cons] at hfuel ⊢
            omega
          have hrec := ih (node :: visited)
            (staticChildren adj node ++ rest) hclosed' hfuel' hfalse'
          rcases hn with h | h
          · rcases List.mem_cons.mp h with h | h
            · exact hrec n (Or.inr (by simp [h]))
            · exact hrec n (Or.inl (List.mem_append_right _ h))
          · exact hrec n (Or.inr (List.mem_cons_of_mem node h))

/-- Completeness of the cycle check: a child that reaches the parent
through the static adjacency makes would_create_cycle answer true. -/
theorem wouldCreateCycle_complete (g : TfGraph) (parent child : Frame)
    (h : ReachStatic g.static_graph child parent) :
    wouldCreateCycle g parent child = true := by
  by_contra hf
  have hfalse : wouldCreateCycle g parent child = false := by
    simpa using hf
  have hfuel : ([child] : List Frame).length
      + unvisitedPotential g.static_graph []
      + 1 ≤ totalStaticChildren g.static_graph + 2 := by
    rw [unvisitedPotential_nil_visited]
    simp only [List.length_cons, List.length_nil]
    omega
  exact dfs_false_unreachable g.static_graph parent
    (totalStaticChildren g.static_graph + 2) [] [child]
    (by intro v hv; simp at hv) hfuel hfalse child (Or.inl (by simp)) h

set_option maxRecDepth 100000 in
set_option exponentiation.threshold 2000 in
/-- C5: a static-edge insert whose child can already reach the parent
through the existing static edges is rejected and leaves the graph
(in particular its static edge set) unchanged; and concretely,
statically ingesting edge A to B and then B to A leaves the graph with
only the A-to-B edge, the second ingest being a no-op. -/
theorem static_cycle_insert_rejected (g : TfGraph) (tf : RosTransformStamped)
    (h : ReachStatic g.static_graph tf.child_frame_id tf.header.frame_id) :
    ingestStaticOne g tf = g
    ∧ ParseOut.bind (ingestTfStaticMsg TfGraph.new payloadAB1)
        (fun g2 => ingestTfStaticMsg g2 payloadBA)
      = .ok graphAB := by
  constructor
  · simp [ingestStaticOne, wouldCreateCycle_complete g _ _ h]
  · rw [graphAB_from_payload]
    norm_num [payloadBA, mkTfPayload, u32leBytes, f64NegOneBytes, f64OneBytes,
      f64ZeroBytes, frA, frB, parseTfMessage, parseTfLoop, parseTransformStamped,
      parseHeader, parseString, parseTransform, parseVector3, parseQuaternion,
      readU32LE, readF64LE, leNat, f64FromBits, List.replicate, ingestTfStaticMsg,
      ingestStaticOne, wouldCreateCycle, dfsReaches, totalStaticChildren,
      staticChildren, alGet, alUpdate, insertUniq, normalizeQuat, normSq, graphAB]

/-- C5 witness: in the graph holding only the static edge A to B, the
child A of a candidate edge B to A reaches the parent B in one step, so
the ingest of that edge leaves the graph unchanged. -/
theorem static_cycle_insert_rejected_witness :
    ingestStaticOne graphAB ⟨⟨frB⟩, frA, ⟨⟨-1, 0, 0⟩, ⟨0, 0, 0, 1⟩⟩⟩ = graphAB :=
  (static_cycle_insert_rejected graphAB ⟨⟨frB⟩, frA, ⟨⟨-1, 0, 0⟩, ⟨0, 0, 0, 1⟩⟩⟩
    (Relation.ReflTransGen.single (by decide))).1

/-! ## Claim C6: retention pruning after every dynamic ingest -/

/-- The sample list stored on a dynamic edge (empty when the edge is
absent). -/
def dynSamples (g : TfGraph) (key : Frame × Frame) : List TfSample :=
  (alGet key g.dynamic).getD []

theorem alGet_map_snd {K V W : Type} [DecidableEq K] (k : K) (f : V → W)
    (l : List (K × V)) :
    alGet k (l.map fun e => (e.1, f e.2)) = (alGet k l).map f := by
  induction l with
  | nil => rfl
  | cons e rest ih => by_cases h : e.1 = k <;> simp [alGet, h, ih]

theorem dynSamples_prune (g : TfGraph) (latest buffer : ℚ)
    (key : Frame × Frame) :
    dynSamples (pruneDynamic g latest buffer) key
      = (dynSamples g key).filter fun s => latest - buffer ≤ s.t := by
  simp only [dynSamples, pruneDynamic, alGet_map_snd]
  cases alGet key g.dynamic <;> simp

theorem dynSamples_push_mono (ts : ℚ) (g : TfGraph)
    (tf : RosTransformStamped) (key : Frame × Frame) (s : TfSample)
    (h : s ∈ dynSamples g key) :
    s ∈ dynSamples (ingestDynamicOne ts g tf) key := by
  simp only [dynSamples, ingestDynamicOne, alGet_alUpdate] at *
  by_cases hk : (tf.header.frame_id, tf.child_frame_id) = key
  · simp only [hk, if_pos]
    rcases hg : alGet key g.dynamic with _ | l
    · rw [hg] at h; simp at h
    · rw [hg] at h
      simp at h ⊢
      exact Or.inl h
  · simpa [hk] using h

theorem dynSamples_fold_mono (ts : ℚ) (tfs : List RosTransformStamped)
    (g : TfGraph) (key : Frame × Frame) (s : TfSample)
    (h : s ∈ dynSamples g key) :
    s ∈ dynSamples (tfs.foldl (ingestDynamicOne ts) g) key := by
  induction tfs generalizing g with
  | nil => exact h
  | cons tf rest ih =>
    exact ih (ingestDynamicOne ts g tf) (dynSamples_push_mono ts g tf key s h)

/-- C6: after a dynamic ingest at time ts with retention duration
buffer, every sample on every dynamic edge of the resulting graph has
time at least ts minus buffer (anything older has been discarded), and
every previously stored sample with time at least ts minus buffer is
retained. -/
theorem dynamic_ingest_retention (g : TfGraph) (ts buffer : ℚ)
    (payload : List Nat) (g' : TfGraph)
    (h : ingestTfMsg g ts payload buffer = .ok g') :
    (∀ key s, s ∈ dynSamples g' key → ts - buffer ≤ s.t)
    ∧ (∀ key s, s ∈ dynSamples g key → ts - buffer ≤ s.t →
        s ∈ dynSamples g' key) := by
  cases hp : parseTfMessage payload with
  | ok tfs =>
    have hg' : g' = pruneDynamic (tfs.foldl (ingestDynamicOne ts) g) ts buffer := by
      simp only [ingestTfMsg, hp, ParseOut.bind_ok] at h
      cases h
      rfl
    subst hg'
    constructor
    · intro key s hs
      rw [dynSamples_prune] at hs
      have := (List.mem_filter.mp hs).2
      simpa using this
    · intro key s hs hle
      rw [dynSamples_prune]
      refine List.mem_filter.mpr ⟨dynSamples_fold_mono ts tfs g key s hs, ?_⟩
      simpa using hle
  | fail => simp [ingestTfMsg, hp] at h
  | panicked => simp [ingestTfMsg, hp] at h

/-- A graph with one dynamic edge A to B holding samples at t = 60 and
t = 80. -/
def graphC6 : TfGraph :=
  ⟨[((frA, frB), [⟨60, ⟨0, 0, 0⟩, idQuat⟩, ⟨80, ⟨0, 0, 0⟩, idQuat⟩])], [], []⟩

/-- The graph after ingesting a dynamic A-to-B sample at t = 100 with a
30-second buffer: the t = 60 sample is pruned (60 < 70), the t = 80
sample and the new t = 100 sample remain. -/
def graphC6' : TfGraph :=
  ⟨[((frA, frB), [⟨80, ⟨0, 0, 0⟩, idQuat⟩, ⟨100, ⟨1, 0, 0⟩, idQuat⟩])], [], []⟩

set_option maxRecDepth 100000 in
set_option exponentiation.threshold 2000 in
/-- Evaluation of the dynamic ingest at t = 100 with buffer 30 on
graphC6. -/
theorem graphC6_ingest_eval :
    ingestTfMsg graphC6 100 payloadAB1 30 = .ok graphC6' := by
  norm_num [payloadAB1, mkTfPayload, u32leBytes, f64OneBytes, f64ZeroBytes, frA, frB,
    parseTfMessage, parseTfLoop, parseTransformStamped, parseHeader, parseString,
    parseTransform, parseVector3, parseQuaternion, readU32LE, readF64LE, leNat,
    f64FromBits, List.replicate, ingestTfMsg, ingestDynamicOne, pruneDynamic,
    alGet, alUpdate, normalizeQuat, normSq, graphC6, graphC6', idQuat]

/-- C6 witness: the retention theorem applied to the concrete ingest of
a sample at t = 100 with buffer 30 on the edge holding samples at t = 60
and t = 80: the t = 80 sample is retained. -/
theorem dynamic_ingest_retention_witness :
    ingestTfMsg graphC6 100 payloadAB1 30 = .ok graphC6'
    ∧ (⟨80, ⟨0, 0, 0⟩, idQuat⟩ : TfSample) ∈ dynSamples graphC6' (frA, frB) :=
  ⟨graphC6_ingest_eval,
   (dynamic_ingest_retention graphC6 100 30 payloadAB1 graphC6'
       graphC6_ingest_eval).2 (frA, frB) ⟨80, ⟨0, 0, 0⟩, idQuat⟩
     (by norm_num [dynSamples, alGet, graphC6]) (by norm_num)⟩

/-! ## Claim C3: which categories feed the segment counters -/

/-- True for the four categories whose dispatch arms touch neither
segment counter: the TF family, odometry, pose and path. -/
def isByteOnlyType : RosType → Bool
  | .tf2Msg | .tfMsg | .tf2Static | .tfStatic
  | .odometry | .poseStamped | .navPath => true
  | _ => false

/-- Options with segmentation enabled by a unit threshold of 10. -/
def segOpts10 : ConvOpts := ⟨false, some 10, none, 30⟩

/-- A kept TF record carrying the 78-byte payload of one valid
transform. -/
def recTf78 : MsgRec := ⟨.tf2Msg, 0, payloadAB1⟩

/-- The state after processing recTf78 with segmentation enabled from
the initial state: the payload bytes land in the cumulative raw-byte
statistic and the graph, the segment counters stay at 0. -/
def stateAfterTf78 : RunState :=
  ⟨1, 0, 78, ⟨[((frA, frB), [⟨0, ⟨1, 0, 0⟩, idQuat⟩])], [], []⟩,
   true, 0, 0, 0, []⟩

set_option maxRecDepth 100000 in
set_option exponentiation.threshold 2000 in
/-- C3 counterexample: the claim states that with segmentation enabled a
kept transform record contributes its payload bytes to the current
Segment's byte counter.  The code refutes this: the TF (and
odometry/pose/path) dispatch arms add the payload length only to the
cumulative raw-byte statistic and never touch segment_raw_bytes or
segment_images.  Processing one kept TF record with a 78-byte payload
from the initial state leaves the segment byte counter at 0, not 78. -/
theorem tf_record_skips_segment_byte_counter :
    procRecord allOkDecoders segOpts10 initState recTf78 = .ok stateAfterTf78
    ∧ stateAfterTf78.segmentRawBytes ≠ initState.segmentRawBytes + 78 := by
  constructor
  · have hparse : ingestTfMsg TfGraph.new 0 payloadAB1 30
        = .ok ⟨[((frA, frB), [⟨0, ⟨1, 0, 0⟩, idQuat⟩])], [], []⟩ := by
      norm_num [payloadAB1, mkTfPayload, u32leBytes, f64OneBytes, f64ZeroBytes,
        frA, frB, parseTfMessage, parseTfLoop, parseTransformStamped, parseHeader,
        parseString, parseTransform, parseVector3, parseQuaternion, readU32LE,
        readF64LE, leNat, f64FromBits, List.replicate, ingestTfMsg,
        ingestDynamicOne, pruneDynamic, alGet, alUpdate, normalizeQuat, normSq,
        TfGraph.new, idQuat]
    have hlen : payloadAB1.length = 78 := by decide
    simp [procRecord, dispatchRecord, segOpts10, initState, recTf78, hparse,
      countByteArm, rotateSegment, segmentationEnabled, segSize, segBytes,
      stateAfterTf78, hlen]
  · decide

theorem parseOutBindEqOk {α β : Type} {x : ParseOut α} {f : α → ParseOut β}
    {b : β} (h : ParseOut.bind x f = .ok b) :
    ∃ a, x = .ok a ∧ f a = .ok b := by
  cases x with
  | ok a => exact ⟨a, rfl, h⟩
  | fail => exact absurd h (by simp [ParseOut.bind])
  | panicked => exact absurd h (by simp [ParseOut.bind])

/-- C3 amended: with segmentation enabled, a successfully dispatched
record of an image-like category (image, compressed image, point cloud,
laser scan, GPS fix) adds one unit and its payload bytes to the current
Segment's counters, while a successfully dispatched
transform/odometry/pose/path record leaves both Segment counters
unchanged and contributes its payload bytes only to the cumulative
raw-byte statistic. -/
theorem segment_counter_categories (d : ExtDecoders) (o : ConvOpts)
    (st st1 : RunState) (r : MsgRec)
    (hseg : segmentationEnabled o = true)
    (h : dispatchRecord d o st r = .ok st1) :
    (isUnitType r.tp = true →
      st1.segmentImages = st.segmentImages + 1
        ∧ st1.segmentRawBytes = st.segmentRawBytes + r.payload.length)
    ∧ (isByteOnlyType r.tp = true →
      st1.segmentImages = st.segmentImages
        ∧ st1.segmentRawBytes = st.segmentRawBytes
        ∧ st1.statsRawBytes = st.statsRawBytes + r.payload.length) := by
  cases htp : r.tp <;> simp only [htp, dispatchRecord] at h <;>
    first
    | (cases h
       simp [isUnitType, isByteOnlyType, countUnitArm, countByteArm, hseg])
    | (obtain ⟨u, hx, hf⟩ := parseOutBindEqOk h
       cases hf
       simp [isUnitType, isByteOnlyType, countUnitArm, countByteArm, hseg])

/-- C3 amended witness: an image record with a 3-byte payload dispatched
from the initial state with segmentation enabled adds one unit and 3
bytes to the segment counters. -/
theorem segment_counter_categories_witness :
    dispatchRecord allOkDecoders segOpts10 initState ⟨.image, 0, [5, 6, 7]⟩
        = .ok ⟨1, 0, 3, TfGraph.new, false, 1, 3, 0, []⟩
    ∧ (⟨1, 0, 3, TfGraph.new, false, 1, 3, 0, []⟩ : RunState).segmentImages
        = initState.segmentImages + 1
    ∧ (⟨1, 0, 3, TfGraph.new, false, 1, 3, 0, []⟩ : RunState).segmentRawBytes
        = initState.segmentRawBytes + 3 :=
  ⟨by decide,
   (segment_counter_categories allOkDecoders segOpts10 initState
       ⟨1, 0, 3, TfGraph.new, false, 1, 3, 0, []⟩ ⟨.image, 0, [5, 6, 7]⟩
       (by decide) (by decide)).1 (by decide)⟩

/-! ## Claim C9: part count under a unit threshold -/

theorem dispatch_effects (d : ExtDecoders) (o : ConvOpts) (st : RunState)
    (r : MsgRec) (st2 : RunState)
    (hseg : segmentationEnabled o = true)
    (h : dispatchRecord d o st r = .ok st2) :
    st2.parts = st.parts ∧ st2.segmentIndex = st.segmentIndex
      ∧ st2.recOpen = st.recOpen
      ∧ st2.segmentImages
          = st.segmentImages + (if isUnitType r.tp = true then 1 else 0) := by
  cases htp : r.tp <;> simp only [htp, dispatchRecord] at h <;>
    first
    | (cases h; simp [countUnitArm, countByteArm, isUnitType, hseg])
    | (obtain ⟨u, hx, hf⟩ := parseOutBindEqOk h
       cases hf
       simp [countUnitArm, countByteArm, isUnitType, hseg])

theorem unitCount_cons (r : MsgRec) (rest : List MsgRec) :
    unitCount (r :: rest)
      = (if isUnitType r.tp = true then 1 else 0) + unitCount rest := by
  by_cases h : isUnitType r.tp = true <;> simp [unitCount, h]
  omega

theorem seg_invariant_step (d : ExtDecoders) (o : ConvOpts) (k m : Nat)
    (st st1 : RunState) (r : MsgRec)
    (hsz : o.segmentSize = some k) (hk : 0 < k)
    (hby : o.segmentBytes = none) (hdry : o.dryRun = false)
    (h : procRecord d o st r = .ok st1)
    (h1 : st.segmentImages < k)
    (h2 : m = k * st.parts.length + st.segmentImages)
    (_h3 : 0 < st.segmentImages → st.recOpen = true) :
    st1.segmentImages < k
    ∧ m + (if isUnitType r.tp = true then 1 else 0)
        = k * st1.parts.length + st1.segmentImages
    ∧ (0 < st1.segmentImages → st1.recOpen = true) := by
  have hseg : segmentationEnabled o = true := by
    simp [segmentationEnabled, hsz, hdry]
  have hsegsz : segSize o = k := by simp [segSize, hsz]
  have hsegby : segBytes o = 0 := by simp [segBytes, hby]
  simp only [procRecord, hdry, Bool.false_eq_true, if_false] at h
  obtain ⟨st2, hdisp, hrot⟩ := parseOutBindEqOk h
  cases hrot
  obtain ⟨hparts, hidx, hopen, himg⟩ :=
    dispatch_effects d o { st with recOpen := true } r st2 hseg hdisp
  simp only at hparts hidx hopen himg
  by_cases hcond : segmentationEnabled o = true
      ∧ ((0 < segSize o ∧ segSize o ≤ st2.segmentImages)
        ∨ (0 < segBytes o ∧ segBytes o ≤ st2.segmentRawBytes))
  · rcases hcond.2 with hc | hc
    · rw [hsegsz] at hc
      by_cases hu : isUnitType r.tp = true
      · have himg2 : st2.segmentImages = st.segmentImages + 1 := by
          rw [if_pos hu] at himg
          exact himg
        rw [rotateSegment, if_pos hcond, if_pos hopen]
        refine ⟨hk, ?_, ?_⟩
        · show m + (if isUnitType r.tp = true then 1 else 0)
              = k * (st2.parts ++ [st2.segmentIndex + 1]).length + 0
          rw [if_pos hu, hparts]
          simp only [List.length_append, List.length_cons, List.length_nil]
          rw [Nat.add_zero, Nat.zero_add, Nat.mul_add, Nat.mul_one]
          omega
        · intro hlt
          exact absurd hlt (by simp)
      · exfalso
        have himg2 : st2.segmentImages = st.segmentImages + 0 := by
          rw [if_neg hu] at himg
          exact himg
        omega
    · exfalso
      rw [hsegby] at hc
      omega
  · rw [rotateSegment, if_neg hcond]
    have hnb : ¬ (k ≤ st2.segmentImages) := by
      intro hle
      exact hcond ⟨hseg, Or.inl ⟨by rw [hsegsz]; exact hk, by rw [hsegsz]; exact hle⟩⟩
    by_cases hu : isUnitType r.tp = true
    · have himg2 : st2.segmentImages = st.segmentImages + 1 := by
        rw [if_pos hu] at himg
        exact himg
      refine ⟨by omega, ?_, fun _ => hopen⟩
      rw [if_pos hu, hparts]
      omega
    · have himg2 : st2.segmentImages = st.segmentImages + 0 := by
        rw [if_neg hu] at himg
        exact himg
      refine ⟨by omega, ?_, fun _ => hopen⟩
      rw [if_neg hu, hparts]
      omega

theorem seg_invariant_run (d : ExtDecoders) (o : ConvOpts) (k : Nat)
    (rs : List MsgRec)
    (hsz : o.segmentSize = some k) (hk : 0 < k)
    (hby : o.segmentBytes = none) (hdry : o.dryRun = false) :
    ∀ (st stF : RunState) (m : Nat),
    runPass2 d o rs st = .ok stF →
    st.segmentImages < k →
    m = k * st.parts.length + st.segmentImages →
    (0 < st.segmentImages → st.recOpen = true) →
    stF.segmentImages < k
    ∧ m + unitCount rs = k * stF.parts.length + stF.segmentImages
    ∧ (0 < stF.segmentImages → stF.recOpen = true) := by
  induction rs with
  | nil =>
    intro st stF m hrun h1 h2 h3
    simp only [runPass2] at hrun
    cases hrun
    exact ⟨h1, by simpa [unitCount] using h2, h3⟩
  | cons r rest ih =>
    intro st stF m hrun h1 h2 h3
    simp only [runPass2] at hrun
    obtain ⟨st2, hstep, hrest⟩ := parseOutBindEqOk hrun
    obtain ⟨g1, g2, g3⟩ :=
      seg_invariant_step d o k m st st2 r hsz hk hby hdry hstep h1 h2 h3
    obtain ⟨f1, f2, f3⟩ := ih st2 stF
      (m + (if isUnitType r.tp = true then 1 else 0)) hrest g1 g2 g3
    refine ⟨f1, ?_, f3⟩
    rw [unitCount_cons]
    omega

theorem ceil_div_parts (k p i : Nat) (hk : 0 < k) (hi : i < k) :
    (k * p + i + k - 1) / k = p + (if 0 < i then 1 else 0) := by
  by_cases h : 0 < i
  · have he : k * p + i + k - 1 = (i + k - 1) + p * k := by
      rw [Nat.mul_comm]; omega
    rw [he, Nat.add_mul_div_right _ _ hk]
    have h1k : (i + k - 1) / k = 1 :=
      Nat.div_eq_of_lt_le (by omega) (by omega)
    rw [h1k, if_pos h]
    omega
  · have he : k * p + i + k - 1 = (k - 1) + p * k := by
      rw [Nat.mul_comm]; omega
    rw [he, Nat.add_mul_div_right _ _ hk,
      Nat.div_eq_of_lt (by omega)]
    rw [if_neg h]
    omega

/-- C9: for a run with segmentation enabled by only a unit threshold
k > 0 (no byte threshold, not a dry run) that completes, the number of
emitted part files (rotation-submitted parts plus the final
under-threshold flush, which happens only when the closing segment has
content) equals the number of qualifying units divided by k rounded up;
in particular 0 parts are emitted when there are no units. -/
theorem segment_cardinality (d : ExtDecoders) (o : ConvOpts) (k : Nat)
    (rs : List MsgRec) (stF : RunState)
    (hsz : o.segmentSize = some k) (hk : 0 < k)
    (hby : o.segmentBytes = none) (hdry : o.dryRun = false)
    (hrun : runPass2 d o rs initState = .ok stF) :
    (emittedParts stF).length = (unitCount rs + k - 1) / k := by
  obtain ⟨h1, h2, h3⟩ :=
    seg_invariant_run d o k rs hsz hk hby hdry initState stF 0 hrun
      (by simpa [initState] using hk) (by simp [initState]) (by simp [initState])
  simp only [initState, Nat.zero_add] at h2
  by_cases hpos : 0 < stF.segmentImages
  · have hopen := h3 hpos
    simp only [emittedParts, hopen, hpos, and_self, if_pos, List.length_append,
      List.length_cons, List.length_nil, true_and]
    rw [h2, ceil_div_parts k stF.parts.length stF.segmentImages hk h1]
    simp [hpos]
  · have hzero : stF.segmentImages = 0 := by omega
    simp only [emittedParts, hzero, lt_self_iff_false, and_false, if_neg,
      not_false_eq_true, List.append_nil]
    rw [h2, hzero, ceil_div_parts k stF.parts.length 0 hk hk]
    simp

/-- A stream of three image records with empty payloads. -/
def threeImages : List MsgRec :=
  [⟨.image, 0, []⟩, ⟨.image, 0, []⟩, ⟨.image, 0, []⟩]

/-- Options with only a unit threshold of 2 set. -/
def segOpts2 : ConvOpts := ⟨false, some 2, none, 30⟩

/-- The state after running the three-image stream with unit threshold
2: one rotation happened (part 1), the final segment holds one unit. -/
def stateThreeImages : RunState :=
  ⟨3, 0, 0, TfGraph.new, true, 1, 0, 1, [1]⟩

/-- C9 witness: three qualifying units with unit threshold 2 emit
ceil(3/2) = 2 parts. -/
theorem segment_cardinality_witness :
    runPass2 allOkDecoders segOpts2 threeImages initState
        = .ok stateThreeImages
    ∧ (emittedParts stateThreeImages).length = (unitCount threeImages + 2 - 1) / 2 :=
  ⟨by decide,
   segment_cardinality allOkDecoders segOpts2 2 threeImages stateThreeImages
     rfl (by decide) rfl rfl (by decide)⟩

/-! ## Claim C7: composition of per-edge transforms along the chain -/

theorem composePath_none (g : TfGraph) (t : ℚ) (mode : TfMode)
    (p : List (Frame × Frame)) (e : Frame × Frame) (he : e ∈ p)
    (hnone : getEdgeTransform g e.1 e.2 t mode = none) :
    ∀ iso, composePath g t mode p iso = none := by
  induction p with
  | nil => simp at he
  | cons e2 rest ih =>
    intro iso
    rcases List.mem_cons.mp he with h | h
    · subst h
      simp [composePath, hnone]
    · cases hedge : getEdgeTransform g e2.1 e2.2 t mode with
      | none => simp [composePath, hedge]
      | some e3 =>
        simp only [composePath, hedge]
        exact ih h _

/-- The graph with static edges A to B (translation (1, 0, 0)) and B to
C (translation (0, 1, 0)), both with identity rotation. -/
def chainGraphABC : TfGraph :=
  ⟨[],
   [((frA, frB), ⟨0, ⟨1, 0, 0⟩, idQuat⟩), ((frB, frC), ⟨0, ⟨0, 1, 0⟩, idQuat⟩)],
   [(frA, [frB]), (frB, [frC])]⟩

/-- A graph with one dynamic edge A to B that holds no samples, so the
edge key is searchable but unresolvable in every mode. -/
def gOneDyn : TfGraph := ⟨[((frA, frB), [])], [], []⟩

/-- C7: when the path search finds a chain and some edge on it has no
resolvable sample under the given mode, the whole resolution returns
none; for the concrete chain of static edges A to B translation
(1, 0, 0) and B to C translation (0, 1, 0), both identity rotation,
resolve(C, A, t, Nearest) composes the two per-edge transforms to
translation (1, 1, 0) at every query time t; and an edge traversed
against its stored static key direction contributes the algebraic
inverse of the stored transform. -/
theorem resolve_chain_composition (g : TfGraph) (target source : Frame)
    (t : ℚ) (mode : TfMode) (p : List (Frame × Frame)) (e : Frame × Frame)
    (hp : findPath g source target = some p) (he : e ∈ p)
    (hnone : getEdgeTransform g e.1 e.2 t mode = none) :
    resolve g target source t mode = none
    ∧ resolve chainGraphABC frC frA t .nearest = some ⟨⟨1, 1, 0⟩, idQuat⟩
    ∧ (∀ (g2 : TfGraph) (pa ch : Frame) (s : TfSample),
        alGet (pa, ch) g2.static_edges = none →
        alGet (ch, pa) g2.static_edges = some s →
        getEdgeTransform g2 pa ch t mode
          = some (isoInverse (sampleToIsometry s))) := by
  refine ⟨?_, ?_, ?_⟩
  · simp only [resolve, hp]
    exact composePath_none g t mode p e he hnone isoIdentity
  · norm_num [chainGraphABC, resolve, findPath, bfsLoop, scanEdges,
      reconstructPath, getEdgeTransform, interpolateSamples, sampleToIsometry,
      normalizeQuat, composePath, isoMul, isoIdentity, qrotate, qmul, qconj,
      normSq, alGet, alUpdate, frA, frB, frC, idQuat]
  · intro g2 pa ch s hno hsome
    simp [getEdgeTransform, hno, hsome]

/-- C7 witness: in the graph whose only edge is a sample-less dynamic
A to B, the search finds the one-edge chain, the edge is unresolvable,
and the whole resolution fails; the concrete A-B-C chain composes to
translation (1, 1, 0). -/
theorem resolve_chain_composition_witness :
    resolve gOneDyn frB frA 0 .nearest = none
    ∧ resolve chainGraphABC frC frA 0 .nearest = some ⟨⟨1, 1, 0⟩, idQuat⟩ :=
  have happ := resolve_chain_composition gOneDyn frB frA 0 .nearest
    [(frA, frB)] (frA, frB) (by decide) (by decide) (by decide)
  ⟨happ.1, happ.2.1⟩

/-! ## Claim C8: interpolate-mode sample selection -/

theorem baStep_fold_fst (at_time : ℚ) (l : List TfSample) :
    ∀ init : Option TfSample × Option TfSample,
    (l.foldl (baStep at_time) init).1
      = l.foldl (beforeStep at_time) init.1 := by
  induction l with
  | nil => intro init; rfl
  | cons s rest ih =>
    intro init
    rw [List.foldl_cons, List.foldl_cons]
    exact ih (baStep at_time init s)

theorem baStep_fold_snd (at_time : ℚ) (l : List TfSample) :
    ∀ init : Option TfSample × Option TfSample,
    (l.foldl (baStep at_time) init).2
      = l.foldl (afterStep at_time) init.2 := by
  induction l with
  | nil => intro init; rfl
  | cons s rest ih =>
    intro init
    rw [List.foldl_cons, List.foldl_cons]
    exact ih (baStep at_time init s)

theorem beforeStep_fold_skip (at_time : ℚ) (l : List TfSample)
    (h : ∀ s ∈ l, ¬ s.t ≤ at_time) :
    ∀ acc, l.foldl (beforeStep at_time) acc = acc := by
  induction l with
  | nil => intro acc; rfl
  | cons s rest ih =>
    intro acc
    have hs : ¬ s.t ≤ at_time := h s (by simp)
    have hstep : beforeStep at_time acc s = acc := by
      simp only [beforeStep]
      exact if_neg (fun hc => hs hc.1)
    rw [List.foldl_cons, hstep]
    exact ih (fun s2 hs2 => h s2 (List.mem_cons_of_mem s hs2)) acc

theorem beforeStep_fold_max (at_time : ℚ) :
    ∀ (l : List TfSample) (b : TfSample),
    l.Pairwise (fun s1 s2 => s1.t < s2.t) →
    b ∈ l → b.t ≤ at_time →
    (∀ s ∈ l, s.t ≤ at_time → s.t ≤ b.t) →
    ∀ acc, (∀ x ∈ acc, ∀ s ∈ l, x.t < s.t) →
    l.foldl (beforeStep at_time) acc = some b := by
  intro l
  induction l with
  | nil => intro b _ hmem; simp at hmem
  | cons s rest ih =>
    intro b hasc hmem hble hmax acc hacc
    obtain ⟨hhead, hrest⟩ := List.pairwise_cons.mp hasc
    rw [List.foldl_cons]
    by_cases hb : b = s
    · subst hb
      have hstep : beforeStep at_time acc b = some b := by
        simp only [beforeStep]
        exact if_pos ⟨hble, fun x hx => hacc x hx b (List.mem_cons_self b rest)⟩
      rw [hstep]
      refine beforeStep_fold_skip at_time rest ?_ (some b)
      intro r hr hle
      exact absurd (hmax r (List.mem_cons_of_mem b hr) hle)
        (not_le.mpr (hhead r hr))
    · have hbr : b ∈ rest := by
        rcases List.mem_cons.mp hmem with h | h
        · exact absurd h hb
        · exact h
      by_cases hsle : s.t ≤ at_time
      · have hstep : beforeStep at_time acc s = some s := by
          simp only [beforeStep]
          exact if_pos ⟨hsle, fun x hx => hacc x hx s (List.mem_cons_self s rest)⟩
        rw [hstep]
        refine ih b hrest hbr hble
          (fun r hr hle => hmax r (List.mem_cons_of_mem s hr) hle) (some s) ?_
        intro x hx r hr
        rcases Option.mem_some_iff.mp hx with rfl
        exact hhead r hr
      · have hstep : beforeStep at_time acc s = acc := by
          simp only [beforeStep]
          exact if_neg (fun hc => hsle hc.1)
        rw [hstep]
        exact ih b hrest hbr hble
          (fun r hr hle => hmax r (List.mem_cons_of_mem s hr) hle) acc
          (fun x hx r hr => hacc x hx r (List.mem_cons_of_mem s hr))

theorem afterStep_fold_skip (at_time : ℚ) (l : List TfSample)
    (h : ∀ s ∈ l, ¬ at_time ≤ s.t) :
    ∀ acc, l.foldl (afterStep at_time) acc = acc := by
  induction l with
  | nil => intro acc; rfl
  | cons s rest ih =>
    intro acc
    have hs : ¬ at_time ≤ s.t := h s (by simp)
    have hstep : afterStep at_time acc s = acc := by
      simp only [afterStep]
      exact if_neg (fun hc => hs hc.1)
    rw [List.foldl_cons, hstep]
    exact ih (fun s2 hs2 => h s2 (List.mem_cons_of_mem s hs2)) acc

theorem afterStep_fold_keep (at_time : ℚ) (l : List TfSample) (a : TfSample)
    (h : ∀ s ∈ l, ¬ s.t < a.t) :
    l.foldl (afterStep at_time) (some a) = some a := by
  induction l with
  | nil => rfl
  | cons s rest ih =>
    have hstep : afterStep at_time (some a) s = some a := by
      simp only [afterStep]
      refine if_neg (fun hc => h s (by simp) ?_)
      exact hc.2 a rfl
    rw [List.foldl_cons, hstep]
    exact ih (fun s2 hs2 => h s2 (List.mem_cons_of_mem s hs2))

theorem afterStep_fold_min (at_time : ℚ) :
    ∀ (l : List TfSample) (a : TfSample),
    l.Pairwise (fun s1 s2 => s1.t < s2.t) →
    a ∈ l → at_time ≤ a.t →
    (∀ s ∈ l, at_time ≤ s.t → a.t ≤ s.t) →
    l.foldl (afterStep at_time) none = some a := by
  intro l
  induction l with
  | nil => intro a _ hmem; simp at hmem
  | cons s rest ih =>
    intro a hasc hmem hage hmin
    obtain ⟨hhead, hrest⟩ := List.pairwise_cons.mp hasc
    rw [List.foldl_cons]
    by_cases hs : at_time ≤ s.t
    · have has : a = s := by
        by_contra hne
        have hmem' : a ∈ rest := by
          rcases List.mem_cons.mp hmem with h | h
          · exact absurd h hne
          · exact h
        exact absurd (hhead a hmem')
          (not_lt.mpr (hmin s (List.mem_cons_self s rest) hs))
      subst has
      have hstep : afterStep at_time none a = some a := by
        simp only [afterStep]
        exact if_pos ⟨hs, fun x hx => by simp at hx⟩
      rw [hstep]
      exact afterStep_fold_keep at_time rest a
        (fun r hr => not_lt.mpr (le_of_lt (hhead r hr)))
    · have has : a ∈ rest := by
        rcases List.mem_cons.mp hmem with h | h
        · exact absurd (h ▸ hage) hs
        · exact h
      have hstep : afterStep at_time none s = none := by
        simp only [afterStep]
        exact if_neg (fun hc => hs hc.1)
      rw [hstep]
      exact ih a hrest has hage
        (fun r hr hle => hmin r (List.mem_cons_of_mem s hr) hle)

/-- The graph with one dynamic edge A to B holding samples at t = 0
(translation x = 0) and t = 10 (translation x = 10), both with identity
rotation. -/
def dynGraphAB : TfGraph :=
  ⟨[((frA, frB), [⟨0, ⟨0, 0, 0⟩, idQuat⟩, ⟨10, ⟨10, 0, 0⟩, idQuat⟩])], [], []⟩

theorem dynGraphAB_interp_eval :
    interpolateSamples
        [⟨0, ⟨0, 0, 0⟩, idQuat⟩, ⟨10, ⟨10, 0, 0⟩, idQuat⟩] 5 .interpolate
      = some ⟨⟨5, 0, 0⟩, idQuat⟩ := by
  have hb1 : beforeStep 5 none ⟨0, ⟨0, 0, 0⟩, idQuat⟩
      = some ⟨0, ⟨0, 0, 0⟩, idQuat⟩ := by
    simp only [beforeStep]
    exact if_pos ⟨by norm_num, by intro x hx; simp at hx⟩
  have ha1 : afterStep 5 none ⟨0, ⟨0, 0, 0⟩, idQuat⟩ = none := by
    simp only [afterStep]
    exact if_neg (fun hc => by norm_num at hc)
  have hb2 : beforeStep 5 (some ⟨0, ⟨0, 0, 0⟩, idQuat⟩) ⟨10, ⟨10, 0, 0⟩, idQuat⟩
      = some ⟨0, ⟨0, 0, 0⟩, idQuat⟩ := by
    simp only [beforeStep]
    exact if_neg (fun hc => by norm_num at hc)
  have ha2 : afterStep 5 none ⟨10, ⟨10, 0, 0⟩, idQuat⟩
      = some ⟨10, ⟨10, 0, 0⟩, idQuat⟩ := by
    simp only [afterStep]
    exact if_pos ⟨by norm_num, by intro x hx; simp at hx⟩
  have hscan : ([⟨0, ⟨0, 0, 0⟩, idQuat⟩, ⟨10, ⟨10, 0, 0⟩, idQuat⟩] :
      List TfSample).foldl (baStep 5) (none, none)
      = (some ⟨0, ⟨0, 0, 0⟩, idQuat⟩, some ⟨10, ⟨10, 0, 0⟩, idQuat⟩) := by
    rw [List.foldl_cons, List.foldl_cons, List.foldl_nil]
    simp only [baStep]
    rw [hb1, ha1, hb2, ha2]
  simp only [interpolateSamples, hscan]
  norm_num [sampleToIsometry, normalizeQuat, normSq, slerpQ, qdot, qneg,
    tfTimeTol, idQuat]

/-- C8: for interpolate-mode selection over a dynamic edge whose sample
times are strictly ascending, with b the latest sample at or before the
queried time and a the earliest sample at or after it: when both exist
and their times differ (by more than the code's 1e-9 tolerance) the
result linearly interpolates the translation and slerps the rotation by
the fractional position of the queried time between them; when only the
before side exists that sample is used (symmetrically for the after
side); when the sample list is empty the resolution fails; and on the
concrete edge with samples x = 0 at t = 0 and x = 10 at t = 10,
resolve(B, A, 5, Interpolate) yields x = 5. -/
theorem tf_interpolation (samples : List TfSample) (b a : TfSample)
    (at_time : ℚ)
    (hasc : samples.Pairwise fun s1 s2 => s1.t < s2.t) :
    ((b ∈ samples ∧ b.t ≤ at_time ∧ ∀ s ∈ samples, s.t ≤ at_time → s.t ≤ b.t) →
     (a ∈ samples ∧ at_time ≤ a.t ∧ ∀ s ∈ samples, at_time ≤ s.t → a.t ≤ s.t) →
     tfTimeTol < |a.t - b.t| →
     interpolateSamples samples at_time .interpolate
       = some (sampleToIsometry
           ⟨at_time,
            ⟨b.trans.x + (at_time - b.t) / (a.t - b.t) * (a.trans.x - b.trans.x),
             b.trans.y + (at_time - b.t) / (a.t - b.t) * (a.trans.y - b.trans.y),
             b.trans.z + (at_time - b.t) / (a.t - b.t) * (a.trans.z - b.trans.z)⟩,
            slerpQ (normalizeQuat b.quat) (normalizeQuat a.quat)
              ((at_time - b.t) / (a.t - b.t))⟩))
    ∧ ((b ∈ samples ∧ b.t ≤ at_time ∧ ∀ s ∈ samples, s.t ≤ at_time → s.t ≤ b.t) →
       (∀ s ∈ samples, ¬ at_time ≤ s.t) →
       interpolateSamples samples at_time .interpolate
         = some (sampleToIsometry b))
    ∧ ((∀ s ∈ samples, ¬ s.t ≤ at_time) →
       (a ∈ samples ∧ at_time ≤ a.t ∧ ∀ s ∈ samples, at_time ≤ s.t → a.t ≤ s.t) →
       interpolateSamples samples at_time .interpolate
         = some (sampleToIsometry a))
    ∧ interpolateSamples [] at_time .interpolate = none
    ∧ resolve dynGraphAB frB frA 5 .interpolate
        = some ⟨⟨5, 0, 0⟩, idQuat⟩ := by
  refine ⟨?_, ?_, ?_, by rfl, ?_⟩
  · rintro ⟨hbm, hble, hbmax⟩ ⟨ham, hage, hamin⟩ hsep
    have h1 : (samples.foldl (baStep at_time)
        ((none, none) : Option TfSample × Option TfSample)).1 = some b := by
      rw [baStep_fold_fst]
      exact beforeStep_fold_max at_time samples b hasc hbm hble hbmax none
        (fun x hx => by simp at hx)
    have h2 : (samples.foldl (baStep at_time)
        ((none, none) : Option TfSample × Option TfSample)).2 = some a := by
      rw [baStep_fold_snd]
      exact afterStep_fold_min at_time samples a hasc ham hage hamin
    have hscan : samples.foldl (baStep at_time)
        ((none, none) : Option TfSample × Option TfSample) = (some b, some a) :=
      Prod.ext_iff.mpr ⟨h1, h2⟩
    simp only [interpolateSamples, hscan]
    rw [if_pos hsep]
  · rintro ⟨hbm, hble, hbmax⟩ hnoafter
    have h1 : (samples.foldl (baStep at_time)
        ((none, none) : Option TfSample × Option TfSample)).1 = some b := by
      rw [baStep_fold_fst]
      exact beforeStep_fold_max at_time samples b hasc hbm hble hbmax none
        (fun x hx => by simp at hx)
    have h2 : (samples.foldl (baStep at_time)
        ((none, none) : Option TfSample × Option TfSample)).2 = none := by
      rw [baStep_fold_snd]
      exact afterStep_fold_skip at_time samples hnoafter none
    have hscan : samples.foldl (baStep at_time)
        ((none, none) : Option TfSample × Option TfSample) = (some b, none) :=
      Prod.ext_iff.mpr ⟨h1, h2⟩
    simp only [interpolateSamples, hscan]
  · rintro hnobefore ⟨ham, hage, hamin⟩
    have h1 : (samples.foldl (baStep at_time)
        ((none, none) : Option TfSample × Option TfSample)).1 = none := by
      rw [baStep_fold_fst]
      exact beforeStep_fold_skip at_time samples hnobefore none
    have h2 : (samples.foldl (baStep at_time)
        ((none, none) : Option TfSample × Option TfSample)).2 = some a := by
      rw [baStep_fold_snd]
      exact afterStep_fold_min at_time samples a hasc ham hage hamin
    have hscan : samples.foldl (baStep at_time)
        ((none, none) : Option TfSample × Option TfSample) = (none, some a) :=
      Prod.ext_iff.mpr ⟨h1, h2⟩
    simp only [interpolateSamples, hscan]
  · have hpath : findPath dynGraphAB frA frB = some [(frA, frB)] := by
      norm_num [dynGraphAB, findPath, bfsLoop, scanEdges, reconstructPath,
        alGet, alUpdate, frA, frB]
    have hedge : getEdgeTransform dynGraphAB frA frB 5 .interpolate
        = some ⟨⟨5, 0, 0⟩, idQuat⟩ := by
      simp only [getEdgeTransform, dynGraphAB, alGet_nil, alGet_cons]
      norm_num [dynGraphAB_interp_eval, frA, frB]
    simp only [resolve, hpath, composePath, hedge]
    norm_num [isoMul, isoIdentity, qrotate, qmul, qconj, idQuat]

/-- C8 witness: the interpolation theorem applied to the concrete
two-sample edge at query time 5: the resolution yields translation
x = 5. -/
theorem tf_interpolation_witness :
    resolve dynGraphAB frB frA 5 .interpolate = some ⟨⟨5, 0, 0⟩, idQuat⟩ :=
  (tf_interpolation [⟨0, ⟨0, 0, 0⟩, idQuat⟩, ⟨10, ⟨10, 0, 0⟩, idQuat⟩]
      ⟨0, ⟨0, 0, 0⟩, idQuat⟩ ⟨10, ⟨10, 0, 0⟩, idQuat⟩ 5
      (by norm_num [List.pairwise_cons])).2.2.2.2
